import Mathlib

/-!
Verification of the incremental partitioned rolling-aggregate core.

A shallow embedding, in Lean 4, of the core of the `database-stream-processor`
repository: the monotone-predicate search `advance`, the trace-bound and
garbage-collection protocol of the `Z1Trace` feedback operator, the
`PartitionedRollingAggregate` quaternary operator together with its
non-incremental reference implementation, the linear aggregator, the
watermark window wrapper, and the JIT command-line entry point.

Rust batches and traces are modelled as sorted association lists; cursors
become list traversals; machine integers become `Nat`/`Int`.  Definitions
that embed code living outside the sampled slice (ranges, radix-tree
queries, cursors, the runtime) are modelled from the specification and say
so in their doc comments.
-/

namespace DBSP

/-! ## Monotone-predicate search (`src/crates/dbsp/src/trace/layers/advance.rs`) -/

/-- Probe of the predicate at index `i` of the slice: `pred slice[i]`,
defaulting to `false` out of bounds (the Rust code only ever probes in
bounds, so the default never matters). -/
def pAt (l : List α) (p : α → Bool) (i : Nat) : Bool :=
  match l[i]? with
  | some x => p x
  | none => false

/-- The exponentially-growing loop of `advance_raw`
(`while index + step < len && pred(slice[index + step])`).  The Rust loop
keeps `step = 2 ^ k` (it starts at `1` and doubles), so we recurse on the
exponent `k`.  Returns the final `(index, k)`. -/
def growPhase (p : Nat → Bool) (len index k : Nat) : Nat × Nat :=
  if h : index + 2 ^ k < len ∧ p (index + 2 ^ k) then
    growPhase p len (index + 2 ^ k) (k + 1)
  else
    (index, k)
termination_by len - index
decreasing_by
  have h2 : 0 < 2 ^ k := Nat.pos_pow_of_pos k (by norm_num)
  omega

/-- The exponentially-shrinking loop of `advance_raw`
(`step >>= 1; while step > 0 { … }`).  Probes steps `2^(m-1), …, 2^0`. -/
def shrinkPhase (p : Nat → Bool) (len : Nat) : Nat → Nat → Nat
  | index, 0 => index
  | index, m + 1 =>
    shrinkPhase p len
      (if index + 2 ^ m < len ∧ p (index + 2 ^ m) then index + 2 ^ m else index) m

/-- Lean embedding of `advance_raw` from
`src/crates/dbsp/src/trace/layers/advance.rs` (`smallLimit` is the
`SMALL_LIMIT` const generic). -/
def advance_raw (smallLimit : Nat) (l : List α) (p : α → Bool) : Nat :=
  let len := l.length
  let probe := pAt l p
  if smallLimit < len ∧ probe smallLimit then
    let index := smallLimit + 1
    if index < len ∧ probe index then
      let r := growPhase probe len index 0
      shrinkPhase probe len r.1 r.2 + 1
    else
      index
  else
    ((l.take (min len smallLimit)).takeWhile p).length

/-- Lean embedding of `advance` (`advance_raw` at `DEFAULT_SMALL_LIMIT = 8`). -/
def advance (l : List α) (p : α → Bool) : Nat :=
  advance_raw 8 l p

/-- The number of leading elements satisfying `p`. -/
def leadCount (l : List α) (p : α → Bool) : Nat :=
  (l.takeWhile p).length

lemma leadCount_le_length (l : List α) (p : α → Bool) : leadCount l p ≤ l.length := by
  induction l with
  | nil => simp [leadCount]
  | cons a t ih =>
    by_cases h : p a
    · simpa [leadCount, List.takeWhile_cons, h] using ih
    · simp [leadCount, List.takeWhile_cons, h]

lemma pAt_lt_leadCount (l : List α) (p : α → Bool) :
    ∀ i, i < leadCount l p → pAt l p i = true := by
  induction l with
  | nil => simp [leadCount]
  | cons a t ih =>
    intro i hi
    by_cases h : p a
    · cases i with
      | zero => simpa [pAt] using h
      | succ j =>
        have : j < leadCount t p := by
          simpa [leadCount, List.takeWhile_cons, h] using hi
        simpa [pAt] using ih j this
    · simp [leadCount, List.takeWhile_cons, h] at hi

lemma pAt_at_leadCount (l : List α) (p : α → Bool) (h : leadCount l p < l.length) :
    pAt l p (leadCount l p) = false := by
  induction l with
  | nil => simp at h
  | cons a t ih =>
    by_cases hp : p a
    · have hlen : leadCount t p < t.length := by
        simpa [leadCount, List.takeWhile_cons, hp] using h
      have := ih hlen
      simpa [leadCount, List.takeWhile_cons, hp, pAt] using this
    · simp [leadCount, List.takeWhile_cons, hp, pAt]

lemma pAt_true_lt_length {l : List α} {p : α → Bool} {i : Nat} (h : pAt l p i = true) :
    i < l.length := by
  by_contra hc
  have : l[i]? = none := List.getElem?_eq_none (by omega)
  simp [pAt, this] at h

/-- Monotone-false predicates are exactly those whose probe sequence is
downward closed: once false, always false. -/
lemma pAt_mono_of_sorted {l : List α} {p : α → Bool}
    (hMono : (l.map p).Sorted (· ≥ ·)) :
    ∀ i j, i ≤ j → pAt l p j = true → pAt l p i = true := by
  intro i j hij hj
  rcases Nat.eq_or_lt_of_le hij with rfl | hlt
  · exact hj
  have hjlen : j < l.length := pAt_true_lt_length hj
  have hilen : i < l.length := lt_trans (by omega) hjlen
  have hget : (l.map p).get ⟨i, by simpa using hilen⟩ ≥ (l.map p).get ⟨j, by simpa using hjlen⟩ := by
    exact (List.pairwise_iff_get.mp hMono) _ _ (by simpa using hlt)
  have hi' : pAt l p i = p (l.get ⟨i, hilen⟩) := by
    simp [pAt, List.getElem?_eq_getElem hilen]
  have hj' : pAt l p j = p (l.get ⟨j, hjlen⟩) := by
    simp [pAt, List.getElem?_eq_getElem hjlen]
  rw [hj'] at hj
  rw [hi']
  simp only [List.get_map] at hget
  rw [hj] at hget
  exact le_antisymm (by simp) hget

/-- Under a monotone-false predicate the probe at `i` succeeds exactly when
`i` is below the leading count. -/
lemma pAt_iff_lt {l : List α} {p : α → Bool}
    (hMono : (l.map p).Sorted (· ≥ ·)) :
    ∀ i, pAt l p i = true ↔ i < leadCount l p := by
  intro i
  constructor
  · intro h
    by_contra hc
    push_neg at hc
    have hilen : i < l.length := pAt_true_lt_length h
    have hn : leadCount l p < l.length := lt_of_le_of_lt hc hilen
    have hfalse := pAt_at_leadCount l p hn
    have := pAt_mono_of_sorted hMono (leadCount l p) i hc h
    rw [this] at hfalse
    simp at hfalse
  · exact pAt_lt_leadCount l p i

lemma growPhase_spec (probe : Nat → Bool) (len n : Nat)
    (hP : ∀ i, probe i = true ↔ i < n) (hn : n ≤ len) :
    ∀ d idx k, len - idx ≤ d → idx < n →
      idx ≤ (growPhase probe len idx k).1 ∧
      (growPhase probe len idx k).1 < n ∧
      n ≤ (growPhase probe len idx k).1 + 2 ^ (growPhase probe len idx k).2 := by
  intro d
  induction d with
  | zero =>
    intro idx k hd hidx
    omega
  | succ d ih =>
    intro idx k hd hidx
    rw [growPhase]
    split
    · rename_i h
      have hpow : 0 < 2 ^ k := Nat.pos_pow_of_pos k (by norm_num)
      have hstep : idx + 2 ^ k < n := (hP _).mp h.2
      have hrec := ih (idx + 2 ^ k) (k + 1) (by omega) hstep
      exact ⟨by omega, hrec.2.1, hrec.2.2⟩
    · rename_i h
      push_neg at h
      dsimp only
      refine ⟨le_refl _, hidx, ?_⟩
      by_cases hlt : idx + 2 ^ k < len
      · have := h hlt
        have : ¬ (idx + 2 ^ k < n) := by
          intro hc
          rw [(hP _).mpr hc] at this
          exact this rfl
        omega
      · omega

lemma shrinkPhase_spec (probe : Nat → Bool) (len n : Nat)
    (hP : ∀ i, probe i = true ↔ i < n) (hn : n ≤ len) :
    ∀ m idx, idx < n → n ≤ idx + 2 ^ m → shrinkPhase probe len idx m = n - 1 := by
  intro m
  induction m with
  | zero =>
    intro idx h1 h2
    simp only [shrinkPhase]
    omega
  | succ m ih =>
    intro idx h1 h2
    rw [shrinkPhase]
    by_cases hc : idx + 2 ^ m < len ∧ probe (idx + 2 ^ m)
    · rw [if_pos hc]
      have hlt : idx + 2 ^ m < n := (hP _).mp hc.2
      apply ih _ hlt
      have : 2 ^ (m + 1) = 2 ^ m + 2 ^ m := by ring
      omega
    · rw [if_neg hc]
      apply ih _ h1
      by_cases hlen : idx + 2 ^ m < len
      · have hprobe : ¬ (probe (idx + 2 ^ m) = true) := fun hp => hc ⟨hlen, hp⟩
        have : ¬ (idx + 2 ^ m < n) := fun hlt => hprobe ((hP _).mpr hlt)
        omega
      · omega

lemma takeWhile_take_length (l : List α) (p : α → Bool) :
    ∀ m, ((l.take m).takeWhile p).length = min (leadCount l p) m := by
  induction l with
  | nil => intro m; simp [leadCount]
  | cons a t ih =>
    intro m
    cases m with
    | zero => simp [leadCount]
    | succ m' =>
      by_cases h : p a
      · have := ih m'
        simp [leadCount, List.takeWhile_cons, h] at this ⊢
        omega
      · simp [leadCount, List.takeWhile_cons, h]

lemma advance_raw_eq_leadCount (smallLimit : Nat) (l : List α) (p : α → Bool)
    (hMono : (l.map p).Sorted (· ≥ ·)) :
    advance_raw smallLimit l p = leadCount l p := by
  have hP := pAt_iff_lt hMono
  have hn : leadCount l p ≤ l.length := leadCount_le_length l p
  set n := leadCount l p with hdefn
  unfold advance_raw
  simp only []
  by_cases h1 : smallLimit < l.length ∧ pAt l p smallLimit
  · rw [if_pos h1]
    have hsl : smallLimit < n := (hP _).mp h1.2
    by_cases h2 : smallLimit + 1 < l.length ∧ pAt l p (smallLimit + 1)
    · rw [if_pos h2]
      have hpre : smallLimit + 1 < n := (hP _).mp h2.2
      have hgrow := growPhase_spec (pAt l p) l.length n hP hn
        (l.length - (smallLimit + 1)) (smallLimit + 1) 0 (le_refl _) hpre
      have hshrink := shrinkPhase_spec (pAt l p) l.length n hP hn
        (growPhase (pAt l p) l.length (smallLimit + 1) 0).2
        (growPhase (pAt l p) l.length (smallLimit + 1) 0).1
        hgrow.2.1 hgrow.2.2
      rw [hshrink]
      omega
    · rw [if_neg h2]
      push_neg at h2
      by_cases hlen : smallLimit + 1 < l.length
      · have hfalse := h2 hlen
        have : ¬ (smallLimit + 1 < n) := by
          intro hc
          rw [(hP _).mpr hc] at hfalse
          exact hfalse rfl
        omega
      · omega
  · rw [if_neg h1]
    rw [takeWhile_take_length]
    push_neg at h1
    by_cases hlen : smallLimit < l.length
    · have hfalse := h1 hlen
      have : ¬ (smallLimit < n) := by
        intro hc
        rw [(hP _).mpr hc] at hfalse
        exact hfalse rfl
      omega
    · omega

/-- C7: for every slice and every predicate that is monotone-false on it
(equivalently, the list of probe results is sorted decreasingly: once false,
always false), `advance` returns the number of leading elements satisfying
the predicate — the unique `n` such that the predicate holds on
`slice[0..n]` and either `n` equals the length or the predicate fails at
`slice[n]`. -/
theorem advance_monotone_spec (l : List α) (p : α → Bool)
    (hMono : (l.map p).Sorted (· ≥ ·)) :
    advance l p = (l.takeWhile p).length ∧
    (∀ i, i < advance l p → pAt l p i = true) ∧
    (advance l p = l.length ∨ pAt l p (advance l p) = false) ∧
    (∀ m, (∀ i, i < m → pAt l p i = true) → (m = l.length ∨ pAt l p m = false) →
      m = advance l p) := by
  have heq : advance l p = leadCount l p := advance_raw_eq_leadCount 8 l p hMono
  have hP := pAt_iff_lt hMono
  have hn := leadCount_le_length l p
  refine ⟨heq, ?_, ?_, ?_⟩
  · intro i hi
    rw [heq] at hi
    exact (hP i).mpr hi
  · rw [heq]
    by_cases h : leadCount l p < l.length
    · right
      exact pAt_at_leadCount l p h
    · left
      omega
  · intro m hpre hend
    rw [heq]
    by_contra hne
    rcases Nat.lt_or_ge m (leadCount l p) with hlt | hge
    · have hm : pAt l p m = true := (hP m).mpr hlt
      rcases hend with hlen | hfalse
      · omega
      · rw [hm] at hfalse
        simp at hfalse
    · have hgt : leadCount l p < m := by omega
      have htrue := hpre (leadCount l p) hgt
      have hlt2 := (hP _).mp htrue
      omega

/-- Witness for C7: the hypotheses of `advance_monotone_spec` hold at a
concrete slice and predicate, and the theorem computes the leading count. -/
theorem advance_monotone_spec_witness :
    ((([true, true, false, false] : List Bool).map id).Sorted (· ≥ ·)) ∧
    advance [true, true, false, false] id = 2 := by
  refine ⟨by decide, ?_⟩
  have h := advance_monotone_spec [true, true, false, false] id (by decide)
  rw [h.1]
  decide

/-! ## Trace bounds and the Z⁻¹ trace operator
(`src/crates/dbsp/src/operator/trace.rs`) -/

/-- A `TraceBound<K>` cell (`Rc<RefCell<Option<K>>>`), modelled by its current
contents.  `TraceBound::new`/`Default` hold `None`; `TraceBound::set` stores
`Some`.  The derived ordering on `TraceBound` compares through `Rc` and
`RefCell` to the inner `Option<K>`, for which Rust derives `None < Some _`. -/
abbrev TraceBound (K : Type) : Type := Option K

/-- `TraceBound::new()`: the freshly registered cell holds `None`. -/
def TraceBound.new (K : Type) : TraceBound K := none

/-- `TraceBound::set`. -/
def TraceBound.set (K : Type) (_ : TraceBound K) (bound : K) : TraceBound K :=
  some bound

/-- Rust's derived `Ord` on `TraceBound<K>` = `Option<K>`:
`None` is strictly least, `Some` compares the payloads. -/
def TraceBound.le [LinearOrder K] : TraceBound K → TraceBound K → Prop
  | none, _ => True
  | some _, none => False
  | some a, some b => a ≤ b

/-- The binary minimum under the derived `Option` ordering. -/
def optMin [LinearOrder K] : Option K → Option K → Option K
  | none, _ => none
  | some _, none => none
  | some a, some b => some (min a b)

/-- `Iterator::min` over the registered bounds: `none` when the collection is
empty, otherwise the least value under the `Option` ordering. -/
def minimumBound [LinearOrder K] : List (Option K) → Option (Option K)
  | [] => none
  | b :: bs => some (bs.foldl optMin b)

/-- `TraceBoundsInner<K>`: either `Unbounded` or a vector of registered
`TraceBound` cells (modelled by their current values). -/
inductive TraceBoundsInner (K : Type) where
  | Unbounded : TraceBoundsInner K
  | Bounded : List (Option K) → TraceBoundsInner K
deriving DecidableEq

namespace TraceBounds

/-- `TraceBounds::bounded()`. -/
def bounded (K : Type) : TraceBoundsInner K := .Bounded []

/-- `TraceBounds::unbounded()`. -/
def unbounded (K : Type) : TraceBoundsInner K := .Unbounded

/-- `TraceBounds::add_bound`: pushes onto the vector in the `Bounded` state
and silently does nothing in the `Unbounded` state. -/
def add_bound : TraceBoundsInner K → TraceBound K → TraceBoundsInner K
  | .Unbounded, _ => .Unbounded
  | .Bounded bs, b => .Bounded (bs ++ [b])

/-- `TraceBounds::make_unbounded`: replaces the whole collection. -/
def make_unbounded (_ : TraceBoundsInner K) : TraceBoundsInner K :=
  .Unbounded

/-- Setting the value of the `i`-th registered cell (the effect on the
collection of `TraceBound::set` on a shared cell). -/
def set_bound : TraceBoundsInner K → Nat → K → TraceBoundsInner K
  | .Unbounded, _, _ => .Unbounded
  | .Bounded bs, i, k => .Bounded (bs.set i (some k))

/-- `TraceBounds::effective_bound`: `None` when unbounded, otherwise the
minimum of the registered cells — panicking (modelled as `Except.error`)
when the `Bounded` vector is empty. -/
def effective_bound [LinearOrder K] : TraceBoundsInner K → Except String (Option K)
  | .Unbounded => .ok none
  | .Bounded bs =>
    match minimumBound bs with
    | some v => .ok v
    | none => .error "At least one trace bound must be set"

end TraceBounds

/-- The trace held by the `Z1Trace` operator: its tuples (key and weight;
values and times are irrelevant to key truncation) and its dirty flag. -/
structure TraceModel (K : Type) where
  tuples : List (K × Int)
  dirtyFlag : Bool
deriving DecidableEq

/-- Modelled from the spec: `truncate_keys_below(b)` drops all tuples with
key `< b` and retains all others (the trace implementation is outside the
sampled slice). -/
def truncate_keys_below [LinearOrder K] (t : TraceModel K) (b : K) : TraceModel K :=
  { t with tuples := t.tuples.filter (fun kv => decide (b ≤ kv.1)) }

/-- The state of the `Z1Trace` operator: logical time, the stored trace,
per-scope dirty flags, the shared bounds collection and the effective bound
remembered from the previous tick. -/
structure Z1TraceState (K : Type) where
  time : Nat
  trace : Option (TraceModel K)
  dirty : List Bool
  bounds : TraceBoundsInner K
  effective_bound : Option K

namespace Z1Trace

/-- Lean embedding of `Z1Trace::eval_strict_owned`.  Besides the successor
state it returns the argument of the `truncate_keys_below` call when one was
made (`none` = no call), so that invocation of truncation is observable. -/
def eval_strict_owned [LinearOrder K] (s : Z1TraceState K) (i : TraceModel K) :
    Except String (Z1TraceState K × Option K) :=
  match TraceBounds.effective_bound s.bounds with
  | .error e => .error e
  | .ok eb =>
    let dirty := i.dirtyFlag
    let call : Option K :=
      if eb ≠ s.effective_bound then
        match eb with
        | some b => some b
        | none => none
      else none
    let i' : TraceModel K :=
      match call with
      | some b => truncate_keys_below i b
      | none => i
    .ok ({ time := s.time + 1
           trace := some i'
           dirty :=
             match s.dirty with
             | [] => []
             | _ :: rest => dirty :: rest.map (fun d => d || dirty)
           bounds := s.bounds
           effective_bound := eb }, call)

end Z1Trace

lemma optMin_none_right [LinearOrder K] (a : Option K) : optMin a none = none := by
  cases a <;> rfl

lemma foldl_optMin_none [LinearOrder K] :
    ∀ (l : List (Option K)) (b : Option K), (b = none ∨ none ∈ l) →
      l.foldl optMin b = none := by
  intro l
  induction l with
  | nil =>
    intro b hb
    rcases hb with rfl | hmem
    · rfl
    · simp at hmem
  | cons x xs ih =>
    intro b hb
    rcases hb with rfl | hmem
    · exact ih _ (Or.inl rfl)
    · rcases List.mem_cons.mp hmem with rfl | hmem'
      · exact ih _ (Or.inl (optMin_none_right b))
      · exact ih _ (Or.inr hmem')

/-- C5: one call of `Z1Trace::eval_strict_owned` invokes
`truncate_keys_below b` on the incoming trace exactly when the effective
bound computed this tick differs from the one remembered from the previous
tick and equals `some b`; in every other case the stored trace is the input
trace unchanged. -/
theorem z1_truncation_spec (K : Type) [LinearOrder K] (s : Z1TraceState K)
    (i : TraceModel K) (eb : Option K)
    (heb : TraceBounds.effective_bound s.bounds = .ok eb) :
    ∃ s' call, Z1Trace.eval_strict_owned s i = .ok (s', call) ∧
      (∀ b : K, call = some b ↔ eb ≠ s.effective_bound ∧ eb = some b) ∧
      (call = none → s'.trace = some i) ∧
      (∀ b : K, call = some b → s'.trace = some (truncate_keys_below i b)) := by
  simp only [Z1Trace.eval_strict_owned, heb]
  by_cases hne : eb ≠ s.effective_bound
  · cases eb with
    | none =>
      rw [if_pos hne]
      refine ⟨_, _, rfl, ?_, ?_, ?_⟩
      · intro b
        simp
      · intro _
        rfl
      · intro b hb
        exact absurd hb (by simp)
    | some b0 =>
      rw [if_pos hne]
      refine ⟨_, _, rfl, ?_, ?_, ?_⟩
      · intro b
        constructor
        · intro hb
          exact ⟨hne, hb⟩
        · intro hb
          exact hb.2
      · intro hb
        exact absurd hb (by simp)
      · intro b hb
        have : b = b0 := (Option.some.inj hb.symm)
        subst this
        rfl
  · rw [if_neg hne]
    push_neg at hne
    refine ⟨_, _, rfl, ?_, ?_, ?_⟩
    · intro b
      constructor
      · intro hb
        exact absurd hb (by simp)
      · intro hb
        exact absurd hne hb.1
    · intro _
      rfl
    · intro b hb
      exact absurd hb (by simp)

/-- Witness for C5: at a concrete state whose effective bound just rose to
`some 3`, the operator truncates the incoming trace at `3`. -/
theorem z1_truncation_spec_witness :
    ∃ s' call,
      Z1Trace.eval_strict_owned
        (K := Nat)
        { time := 0, trace := none, dirty := [false, false],
          bounds := .Bounded [some 3], effective_bound := some 5 }
        { tuples := [(1, 2), (4, 1)], dirtyFlag := true } = .ok (s', call) ∧
      (∀ b : Nat, call = some b ↔
        (some 3 : Option Nat) ≠ some 5 ∧ (some 3 : Option Nat) = some b) ∧
      (call = none →
        s'.trace = some { tuples := [(1, 2), (4, 1)], dirtyFlag := true }) ∧
      (∀ b : Nat, call = some b →
        s'.trace = some (truncate_keys_below
          { tuples := [(1, 2), (4, 1)], dirtyFlag := true } b)) :=
  z1_truncation_spec Nat
    { time := 0, trace := none, dirty := [false, false],
      bounds := .Bounded [some 3], effective_bound := some 5 }
    { tuples := [(1, 2), (4, 1)], dirtyFlag := true } (some 3) rfl

/-- The operations that can reach a `TraceBounds` collection after its
creation: registering a further bound and setting a registered cell. -/
inductive BoundOp (K : Type) where
  | addB : Option K → BoundOp K
  | setB : Nat → K → BoundOp K

/-- Applying one operation to a collection. -/
def applyBoundOp : TraceBoundsInner K → BoundOp K → TraceBoundsInner K
  | s, .addB b => TraceBounds.add_bound s b
  | s, .setB i k => TraceBounds.set_bound s i k

/-- Applying a sequence of operations. -/
def applyBoundOps (s : TraceBoundsInner K) (ops : List (BoundOp K)) :
    TraceBoundsInner K :=
  ops.foldl applyBoundOp s

lemma applyBoundOps_unbounded (K : Type) (ops : List (BoundOp K)) :
    applyBoundOps .Unbounded ops = .Unbounded := by
  induction ops with
  | nil => rfl
  | cons op rest ih =>
    cases op <;> exact ih

/-- C6: `make_unbounded` poisons the collection irreversibly: after it, any
interleaving of `add_bound` and `set` operations leaves the collection
`Unbounded`, a further `add_bound` is a no-op, and `effective_bound` returns
`None`. -/
theorem make_unbounded_poisons (K : Type) [LinearOrder K]
    (s : TraceBoundsInner K) (ops : List (BoundOp K)) :
    applyBoundOps (TraceBounds.make_unbounded s) ops = .Unbounded ∧
    (∀ b : TraceBound K,
      TraceBounds.add_bound (applyBoundOps (TraceBounds.make_unbounded s) ops) b =
        applyBoundOps (TraceBounds.make_unbounded s) ops) ∧
    TraceBounds.effective_bound (applyBoundOps (TraceBounds.make_unbounded s) ops) =
      .ok none := by
  have h : applyBoundOps (TraceBounds.make_unbounded s) ops = .Unbounded :=
    applyBoundOps_unbounded K ops
  refine ⟨h, ?_, ?_⟩
  · intro b
    rw [h]
    rfl
  · rw [h]
    rfl

/-- C10: a registered-but-never-set `TraceBound` holds `None`, which is
strictly below every `Some` in the derived ordering; hence a bounded
collection containing an unset cell has effective bound `None` and
`eval_strict_owned` performs no truncation on that tick. -/
theorem unset_bound_forces_none (K : Type) [LinearOrder K]
    (bs : List (Option K)) (hmem : (none : Option K) ∈ bs)
    (s : Z1TraceState K) (hb : s.bounds = .Bounded bs) (i : TraceModel K) :
    TraceBound.new K = (none : Option K) ∧
    (∀ k : K, TraceBound.le (TraceBound.new K) (some k) ∧
      ¬ TraceBound.le (some k) (TraceBound.new K)) ∧
    TraceBounds.effective_bound s.bounds = .ok none ∧
    ∃ s', Z1Trace.eval_strict_owned s i = .ok (s', none) ∧ s'.trace = some i := by
  have heff : TraceBounds.effective_bound s.bounds = .ok none := by
    rw [hb]
    cases bs with
    | nil => simp at hmem
    | cons b rest =>
      have : rest.foldl optMin b = none := by
        apply foldl_optMin_none
        rcases List.mem_cons.mp hmem with rfl | hmem'
        · exact Or.inl rfl
        · exact Or.inr hmem'
      simp [TraceBounds.effective_bound, minimumBound, this]
  refine ⟨rfl, ?_, heff, ?_⟩
  · intro k
    exact ⟨trivial, fun hc => hc⟩
  · obtain ⟨s', call, hev, hcall, hnone, _⟩ := z1_truncation_spec K s i none heff
    have : call = none := by
      cases hc : call with
      | none => rfl
      | some b =>
        have := (hcall b).mp hc
        exact absurd this.2 (by simp)
    subst this
    exact ⟨s', hev, hnone rfl⟩

/-- Witness for C10 at a concrete collection holding an unset cell next to a
set one. -/
theorem unset_bound_forces_none_witness :
    TraceBound.new Nat = (none : Option Nat) ∧
    (∀ k : Nat, TraceBound.le (TraceBound.new Nat) (some k) ∧
      ¬ TraceBound.le (some k) (TraceBound.new Nat)) ∧
    TraceBounds.effective_bound (K := Nat) (.Bounded [none, some 2]) = .ok none ∧
    ∃ s', Z1Trace.eval_strict_owned
        (K := Nat)
        { time := 0, trace := none, dirty := [false],
          bounds := .Bounded [none, some 2], effective_bound := some 7 }
        { tuples := [(0, 1), (9, 3)], dirtyFlag := false } = .ok (s', none) ∧
      s'.trace = some { tuples := [(0, 1), (9, 3)], dirtyFlag := false } :=
  unset_bound_forces_none Nat [none, some 2] (by simp)
    { time := 0, trace := none, dirty := [false],
      bounds := .Bounded [none, some 2], effective_bound := some 7 }
    rfl
    { tuples := [(0, 1), (9, 3)], dirtyFlag := false }

/-! ## The JIT command-line entry point (`src/crates/dataflow-jit/src/main.rs`) -/

/-- Process exit status. -/
inductive MainExit where
  | success : MainExit
  | failure : MainExit
deriving DecidableEq

/-- The externally observable steps of `main`. -/
inductive MainAction where
  | readStdin : MainAction
  | readFile : MainAction
  | validateJson : MainAction
  | buildGraph : MainAction
  | runOneTick : MainAction
  | killRuntime : MainAction
deriving DecidableEq

/-- The outcomes of the fallible steps of `main`: whether the file argument
is `-`, whether `File::open`, `read_to_string`, `serde_json::from_str`,
schema compilation, schema validation, `SqlGraph` deserialization, graph
validation and `Runtime::kill` succeed. -/
structure MainEnv where
  fileIsDash : Bool
  openOk : Bool
  readOk : Bool
  parseOk : Bool
  schemaCompileOk : Bool
  validateOk : Bool
  graphParseOk : Bool
  graphValidateOk : Bool
  killOk : Bool

/-- Lean embedding of the control flow of `main`.  The runtime step is
modelled from the spec: `Runtime::init_circuit` (whose implementation is
outside the sampled slice) constructs the circuit and the entry point runs
it for one tick before killing it.  Returns the performed actions and the
exit code. -/
def mainRun (e : MainEnv) : List MainAction × MainExit :=
  let src : List MainAction :=
    if e.fileIsDash then [.readStdin] else [.readFile]
  if ¬ e.fileIsDash ∧ ¬ e.openOk then (src, .failure)
  else if ¬ e.readOk then (src, .failure)
  else if ¬ e.parseOk then (src, .failure)
  else if e.schemaCompileOk ∧ ¬ e.validateOk then (src ++ [.validateJson], .failure)
  else
    let acts := src ++ (if e.schemaCompileOk then [.validateJson] else [])
    if ¬ e.graphParseOk then (acts, .failure)
    else if ¬ e.graphValidateOk then (acts, .failure)
    else (acts ++ [.buildGraph, .runOneTick, .killRuntime],
      if e.killOk then .success else .failure)

/-- C8: the entry point reads stdin exactly when the file argument is `-`
(otherwise the named file); it exits 0 exactly when every step succeeds, in
which case it built the graph, ran one tick and killed the runtime; and a
JSON-parse, schema-validation or graph-build failure always exits
non-zero. -/
theorem cli_main_spec (e : MainEnv) :
    ((mainRun e).1.head? = some (if e.fileIsDash then .readStdin else .readFile)) ∧
    ((mainRun e).2 = .success ↔
      (e.fileIsDash ∨ e.openOk) ∧ e.readOk ∧ e.parseOk ∧
      (e.schemaCompileOk → e.validateOk) ∧ e.graphParseOk ∧ e.graphValidateOk ∧
      e.killOk) ∧
    ((mainRun e).2 = .success →
      MainAction.buildGraph ∈ (mainRun e).1 ∧
      MainAction.runOneTick ∈ (mainRun e).1 ∧
      MainAction.killRuntime ∈ (mainRun e).1) ∧
    (¬ e.parseOk → (mainRun e).2 = .failure) ∧
    (e.schemaCompileOk ∧ ¬ e.validateOk → (mainRun e).2 = .failure) ∧
    (¬ e.graphParseOk → (mainRun e).2 = .failure) ∧
    (¬ e.graphValidateOk → (mainRun e).2 = .failure) := by
  obtain ⟨f1, f2, f3, f4, f5, f6, f7, f8, f9⟩ := e
  cases f1 <;> cases f2 <;> cases f3 <;> cases f4 <;> cases f5 <;> cases f6 <;>
    cases f7 <;> cases f8 <;> cases f9 <;> decide

/-- Witness for C8 at the all-successful stdin environment. -/
theorem cli_main_spec_witness :
    (mainRun ⟨true, true, true, true, true, true, true, true, true⟩).2 =
      MainExit.success ∧
    MainAction.runOneTick ∈
      (mainRun ⟨true, true, true, true, true, true, true, true, true⟩).1 := by
  have h := cli_main_spec ⟨true, true, true, true, true, true, true, true, true⟩
  refine ⟨?_, ?_⟩
  · exact h.2.1.mpr (by decide)
  · exact (h.2.2.1 (h.2.1.mpr (by decide))).2.1

/-! ## The linear aggregator
(`src/crates/dbsp/src/operator/time_series/rolling_aggregate.rs`, lines 82–103) -/

/-- The accumulation loop of `LinearAggregator::aggregate`: `res` starts as
`None`; each cursor entry `(v, w)` contributes `f(v) * w`. -/
def aggLoop (f : V → Int) : Option Int → List (V × Int) → Option Int
  | res, [] => res
  | res, (v, w) :: rest =>
    aggLoop f
      (match res with
       | none => some (f v * w)
       | some old => some (old + f v * w)) rest

namespace LinearAggregator

/-- Lean embedding of `LinearAggregator::aggregate` over the cursor's
entries (value, weight) in cursor order, with accumulator type `A = Int`
and `MulByRef` the ring multiplication. -/
def aggregate (f : V → Int) (entries : List (V × Int)) : Option Int :=
  aggLoop f none entries

/-- Lean embedding of `LinearAggregator::finalize`. -/
def finalize (output_func : Int → Int) (acc : Int) : Int :=
  output_func acc

end LinearAggregator

lemma aggLoop_some (f : V → Int) :
    ∀ (l : List (V × Int)) (a : Int),
      aggLoop f (some a) l = some (l.foldl (fun acc vw => acc + f vw.1 * vw.2) a) := by
  intro l
  induction l with
  | nil => intro a; rfl
  | cons vw rest ih =>
    intro a
    obtain ⟨v, w⟩ := vw
    simpa [aggLoop] using ih (a + f v * w)

/-- C9: `LinearAggregator::aggregate` returns `None` exactly on an empty
cursor and otherwise `Some` of the weight-multiplied sum `Σ f(vᵢ)·wᵢ`
folded in cursor order; `finalize` applies `output_func`. -/
theorem linear_aggregate_spec (f : V → Int) (output_func : Int → Int)
    (entries : List (V × Int)) :
    (LinearAggregator.aggregate f entries = none ↔ entries = []) ∧
    (entries ≠ [] →
      LinearAggregator.aggregate f entries =
        some (entries.foldl (fun acc vw => acc + f vw.1 * vw.2) 0)) ∧
    (∀ a : Int, LinearAggregator.finalize output_func a = output_func a) := by
  refine ⟨?_, ?_, fun _ => rfl⟩
  · constructor
    · intro h
      cases entries with
      | nil => rfl
      | cons vw rest =>
        obtain ⟨v, w⟩ := vw
        rw [LinearAggregator.aggregate, aggLoop, aggLoop_some] at h
        simp at h
    · intro h
      subst h
      rfl
  · intro h
    cases entries with
    | nil => exact absurd rfl h
    | cons vw rest =>
      obtain ⟨v, w⟩ := vw
      rw [LinearAggregator.aggregate, aggLoop, aggLoop_some]
      simp

/-- Witness for C9 at `f = id` on a two-entry cursor. -/
theorem linear_aggregate_spec_witness :
    LinearAggregator.aggregate (fun v : Int => v) [(2, 3), (5, -1)] = some 1 := by
  have h := linear_aggregate_spec (fun v : Int => v) (fun a => a) [(2, 3), (5, -1)]
  rw [h.2.1 (by simp)]
  decide

/-! ## Ranges and relative ranges

Timestamps are modelled as `Nat` (an unsigned `TS` type whose minimum value
is `0`; the upper end of the machine range plays no role in the claims).
`range.rs` is outside the sampled slice, so `RelOffset`, `Range`,
`RelRange::range_of` and `RelRange::affected_range_of` are modelled from the
spec: a `RelRange` is a pair of signed offsets from an anchor; `range_of`
resolves to an absolute inclusive range whose left edge saturates at the
minimum timestamp, and is `None` when the whole window underflows (right
edge below the minimum). -/

/-- `RelOffset::Before(n)` / `RelOffset::After(n)`. -/
inductive RelOffset where
  | Before : Nat → RelOffset
  | After : Nat → RelOffset
deriving DecidableEq

/-- The signed displacement denoted by a relative offset. -/
def RelOffset.val : RelOffset → Int
  | .Before n => -(n : Int)
  | .After n => (n : Int)

/-- The offset denoting a given signed displacement. -/
def RelOffset.ofInt (x : Int) : RelOffset :=
  if x < 0 then .Before x.natAbs else .After x.natAbs

/-- Subtraction of relative offsets (`range.from - range.to` in the
watermark wrapper). -/
def RelOffset.sub (a b : RelOffset) : RelOffset :=
  RelOffset.ofInt (a.val - b.val)

lemma RelOffset.val_ofInt (x : Int) : (RelOffset.ofInt x).val = x := by
  unfold RelOffset.ofInt
  split <;> simp only [RelOffset.val] <;> omega

/-- An inclusive interval `[lo, hi]` of timestamps (`Range { from, to }`). -/
structure TsRange where
  lo : Nat
  hi : Nat
deriving DecidableEq

/-- Membership of a timestamp in an inclusive range. -/
def TsRange.memB (q : TsRange) (ts : Nat) : Bool :=
  decide (q.lo ≤ ts) && decide (ts ≤ q.hi)

/-- `RelRange { from, to }`: a relative window; `lo` is `from`, `hi` is
`to`. -/
structure RelRange where
  lo : RelOffset
  hi : RelOffset
deriving DecidableEq

/-- Modelled from the spec: `RelRange::range_of(ts)`. -/
def RelRange.range_of (r : RelRange) (ts : Nat) : Option TsRange :=
  if (ts : Int) + r.hi.val < 0 then none
  else some ⟨((ts : Int) + r.lo.val).toNat, ((ts : Int) + r.hi.val).toNat⟩

/-- Modelled from the spec: `RelRange::affected_range_of(ts)` — the range of
anchor timestamps whose resolved window contains `ts`. -/
def RelRange.affected_range_of (r : RelRange) (ts : Nat) : Option TsRange :=
  if (ts : Int) - r.lo.val < 0 then none
  else some ⟨((ts : Int) - r.hi.val).toNat, ((ts : Int) - r.lo.val).toNat⟩

/-- The defining property of `affected_range_of`: anchor `t` is affected by
a change at `ts` exactly when `ts` lies in the window anchored at `t`. -/
lemma affected_range_char (r : RelRange) (t ts : Nat) :
    (∃ aq, r.affected_range_of ts = some aq ∧ aq.memB t = true) ↔
    (∃ q, r.range_of t = some q ∧ q.memB ts = true) := by
  unfold RelRange.affected_range_of RelRange.range_of
  constructor
  · rintro ⟨aq, haq, hmem⟩
    split at haq
    · exact absurd haq (by simp)
    · rename_i hge
      injection haq with haq'
      subst haq'
      simp only [TsRange.memB, Bool.and_eq_true, decide_eq_true_eq] at hmem
      obtain ⟨h1, h2⟩ := hmem
      rw [if_neg (by omega)]
      refine ⟨_, rfl, ?_⟩
      simp only [TsRange.memB, Bool.and_eq_true, decide_eq_true_eq]
      omega
  · rintro ⟨q, hq, hmem⟩
    split at hq
    · exact absurd hq (by simp)
    · rename_i hge
      injection hq with hq'
      subst hq'
      simp only [TsRange.memB, Bool.and_eq_true, decide_eq_true_eq] at hmem
      obtain ⟨h1, h2⟩ := hmem
      rw [if_neg (by omega)]
      refine ⟨_, rfl, ?_⟩
      simp only [TsRange.memB, Bool.and_eq_true, decide_eq_true_eq]
      omega

/-! ## The watermark wrapper
(`rolling_aggregate.rs`, `partitioned_rolling_aggregate_with_watermark`) -/

/-- The shifted window `RelRange::new(range.from - range.to,
RelOffset::Before(0))` built by the wrapper. -/
def shifted_range (r : RelRange) : RelRange :=
  ⟨r.lo.sub r.hi, .Before 0⟩

/-- The per-tick lower bound computed by the wrapper:
`shifted_range.range_of(wm).map(|r| r.from).unwrap_or(TS::min_value())`. -/
def watermark_lower_bound (r : RelRange) (wm : Nat) : Nat :=
  (((shifted_range r).range_of wm).map TsRange.lo).getD 0

/-- The wrapper's observable per-tick effect: the value stored into the
registered `TraceBound` (`(lower, None)`) and the left edge of the window
installed on the input stream (the right edge is `TS::max_value`, implicit
in the `Nat` model). -/
def watermark_tick (r : RelRange) (wm : Nat) : (Nat × Option Int) × Nat :=
  ((watermark_lower_bound r wm, none), watermark_lower_bound r wm)

/-- C4: at every tick the installed lower bound — the window's left edge
and the value stored into the registered `TraceBound` — equals
`wm - (range.to - range.from)`, clamped to `TS::min_value() = 0` when that
subtraction underflows. -/
theorem watermark_bound_spec (r : RelRange) (wm : Nat) :
    watermark_lower_bound r wm = ((wm : Int) - (r.hi.val - r.lo.val)).toNat ∧
    watermark_tick r wm =
      ((((wm : Int) - (r.hi.val - r.lo.val)).toNat, none),
        ((wm : Int) - (r.hi.val - r.lo.val)).toNat) := by
  have h : watermark_lower_bound r wm = ((wm : Int) - (r.hi.val - r.lo.val)).toNat := by
    unfold watermark_lower_bound shifted_range RelRange.range_of
    simp only [RelOffset.sub, RelOffset.val_ofInt]
    rw [if_neg (show ¬ ((wm : Int) + (RelOffset.Before 0).val < 0) by
      simp [RelOffset.val])]
    simp
    omega
  exact ⟨h, by rw [watermark_tick, h]⟩

/-! ## Association-list Z-sets

Batches, traces and their integrals are modelled as association lists:
partition key ↦ timestamp ↦ value ↦ weight.  A canonical list has distinct
keys at every level, no zero weights and no empty sub-lists; it represents
a finitely-supported weight function.  List order models cursor order; no
semantic property below depends on it. -/

/-- Association-list lookup (the unique entry for a key, if any). -/
def lookupK [DecidableEq K] (k : K) : List (K × β) → Option β
  | [] => none
  | e :: rest => if e.1 = k then some e.2 else lookupK k rest

/-- Well-formedness of one level: distinct keys, all entries satisfying `P`. -/
abbrev KWF (P : β → Prop) (l : List (K × β)) : Prop :=
  (l.map Prod.fst).Nodup ∧ ∀ e ∈ l, P e.2

/-- Keyed update: apply `f` to the entry at `k` (starting from `init` when
absent) and delete the result when `isEmpty` holds of it. -/
def addK [DecidableEq K] (k : K) (f : β → β) (init : β) (isEmpty : β → Bool) :
    List (K × β) → List (K × β)
  | [] => if isEmpty (f init) then [] else [(k, f init)]
  | e :: rest =>
    if e.1 = k then
      (if isEmpty (f e.2) then rest else (k, f e.2) :: rest)
    else e :: addK k f init isEmpty rest

lemma lookupK_eq_none_of_not_mem [DecidableEq K] {k : K} :
    ∀ {l : List (K × β)}, k ∉ l.map Prod.fst → lookupK k l = none := by
  intro l
  induction l with
  | nil => intro _; rfl
  | cons e rest ih =>
    intro h
    have h1 : ¬ (e.1 = k) := fun hh => h (by simp [hh])
    have h2 : k ∉ rest.map Prod.fst := fun hh => h (by simp [hh])
    rw [lookupK, if_neg h1, ih h2]

lemma lookupK_addK_ne [DecidableEq K] (k k' : K) (hne : k' ≠ k)
    (f : β → β) (init : β) (isEmpty : β → Bool) :
    ∀ l : List (K × β), lookupK k' (addK k f init isEmpty l) = lookupK k' l := by
  intro l
  induction l with
  | nil =>
    rw [addK]
    split
    · rfl
    · simp [lookupK, Ne.symm hne]
  | cons e rest ih =>
    rw [addK]
    by_cases he : e.1 = k
    · rw [if_pos he]
      by_cases hemp : isEmpty (f e.2)
      · rw [if_pos hemp, lookupK, if_neg (by rw [he]; exact Ne.symm hne)]
      · rw [if_neg hemp, lookupK, lookupK,
          if_neg (show ¬ ((k, f e.2).1 = k') from Ne.symm hne),
          if_neg (by rw [he]; exact Ne.symm hne)]
    · rw [if_neg he, lookupK, lookupK]
      by_cases he' : e.1 = k'
      · rw [if_pos he', if_pos he']
      · rw [if_neg he', if_neg he', ih]

lemma lookupK_addK_self [DecidableEq K] (k : K)
    (f : β → β) (init : β) (isEmpty : β → Bool) :
    ∀ l : List (K × β), (l.map Prod.fst).Nodup →
      lookupK k (addK k f init isEmpty l) =
        (if isEmpty (f ((lookupK k l).getD init)) then none
         else some (f ((lookupK k l).getD init))) := by
  intro l
  induction l with
  | nil =>
    intro _
    rw [addK]
    split
    · rename_i h
      simp [lookupK, h]
    · rename_i h
      simp only [Bool.not_eq_true] at h
      simp [lookupK, h]
  | cons e rest ih =>
    intro hn
    rw [List.map_cons, List.nodup_cons] at hn
    rw [addK]
    by_cases he : e.1 = k
    · rw [if_pos he, lookupK, if_pos he]
      simp only [Option.getD_some]
      split
      · exact lookupK_eq_none_of_not_mem (by rw [← he]; exact hn.1)
      · rw [lookupK, if_pos rfl]
    · rw [if_neg he, lookupK, lookupK, if_neg he, if_neg he, ih hn.2]

lemma addK_keys_subset [DecidableEq K] (k : K)
    (f : β → β) (init : β) (isEmpty : β → Bool) :
    ∀ (l : List (K × β)) (x : K), x ∈ (addK k f init isEmpty l).map Prod.fst →
      x = k ∨ x ∈ l.map Prod.fst := by
  intro l
  induction l with
  | nil =>
    intro x hx
    rw [addK] at hx
    split at hx
    · simp at hx
    · rw [List.map_cons, List.mem_cons] at hx
      rcases hx with rfl | hx
      · exact Or.inl rfl
      · simp at hx
  | cons e rest ih =>
    intro x hx
    rw [addK] at hx
    by_cases he : e.1 = k
    · rw [if_pos he] at hx
      split at hx
      · right
        rw [List.map_cons, List.mem_cons]
        exact Or.inr hx
      · rw [List.map_cons, List.mem_cons] at hx
        rcases hx with rfl | hx
        · exact Or.inl rfl
        · right
          rw [List.map_cons, List.mem_cons]
          exact Or.inr hx
    · rw [if_neg he] at hx
      rw [List.map_cons, List.mem_cons] at hx
      rcases hx with rfl | hx
      · right
        rw [List.map_cons, List.mem_cons]
        exact Or.inl rfl
      · rcases ih x hx with h | h
        · exact Or.inl h
        · right
          rw [List.map_cons, List.mem_cons]
          exact Or.inr h

lemma KWF_addK [DecidableEq K] (P : β → Prop) (k : K)
    (f : β → β) (init : β) (isEmpty : β → Bool)
    (hinit : isEmpty (f init) = false → P (f init))
    (hstep : ∀ b, P b → isEmpty (f b) = false → P (f b)) :
    ∀ l : List (K × β), KWF P l → KWF P (addK k f init isEmpty l) := by
  intro l
  induction l with
  | nil =>
    intro _
    rw [addK]
    split
    · exact ⟨by simp, by simp⟩
    · rename_i hemp
      refine ⟨by simp, ?_⟩
      intro e he
      simp at he
      rw [he]
      exact hinit (by simpa using hemp)
  | cons e rest ih =>
    intro hwf
    obtain ⟨hn, hP⟩ := hwf
    rw [List.map_cons, List.nodup_cons] at hn
    rw [addK]
    by_cases he : e.1 = k
    · rw [if_pos he]
      split
      · exact ⟨hn.2, fun e' he' => hP e' (List.mem_cons_of_mem _ he')⟩
      · rename_i hemp
        refine ⟨?_, ?_⟩
        · rw [List.map_cons, List.nodup_cons]
          exact ⟨by rw [← he]; exact hn.1, hn.2⟩
        · intro e' he'
          rcases List.mem_cons.mp he' with rfl | he''
          · exact hstep e.2 (hP e (List.mem_cons_self e rest)) (by simpa using hemp)
          · exact hP e' (List.mem_cons_of_mem _ he'')
    · rw [if_neg he]
      have hrest := ih ⟨hn.2, fun e' he' => hP e' (List.mem_cons_of_mem _ he')⟩
      refine ⟨?_, ?_⟩
      · rw [List.map_cons, List.nodup_cons]
        constructor
        · intro hmem
          rcases addK_keys_subset k f init isEmpty rest e.1 hmem with h | h
          · exact he h
          · exact hn.1 h
        · exact hrest.1
      · intro e' he'
        rcases List.mem_cons.mp he' with rfl | he''
        · exact hP _ (List.mem_cons_self _ rest)
        · exact hrest.2 e' he''

/-- The weight that a finite list of (tuple, weight) pairs — a Z-set —
assigns to a tuple. -/
def toFn [DecidableEq X] (l : List (X × Int)) (x : X) : Int :=
  ((l.filter (fun e => decide (e.1 = x))).map Prod.snd).sum

lemma toFn_nil [DecidableEq X] (x : X) : toFn ([] : List (X × Int)) x = 0 := rfl

lemma toFn_cons [DecidableEq X] (e : X × Int) (l : List (X × Int)) (x : X) :
    toFn (e :: l) x = (if e.1 = x then e.2 else 0) + toFn l x := by
  unfold toFn
  by_cases h : e.1 = x
  · simp [List.filter_cons, h]
  · simp [List.filter_cons, h]

lemma toFn_append [DecidableEq X] (l1 l2 : List (X × Int)) (x : X) :
    toFn (l1 ++ l2) x = toFn l1 x + toFn l2 x := by
  unfold toFn
  rw [List.filter_append, List.map_append, List.sum_append]

lemma toFn_eq_zero_of_ne [DecidableEq X] (l : List (X × Int)) (x : X)
    (h : ∀ e ∈ l, e.1 ≠ x) : toFn l x = 0 := by
  induction l with
  | nil => rfl
  | cons e rest ih =>
    rw [toFn_cons, if_neg (h e (List.mem_cons_self e rest)),
      ih (fun e' he' => h e' (List.mem_cons_of_mem _ he'))]
    simp

lemma toFn_eq_lookup [DecidableEq X] (l : List (X × Int))
    (hn : (l.map Prod.fst).Nodup) (x : X) :
    toFn l x = (lookupK x l).getD 0 := by
  induction l with
  | nil => rfl
  | cons e rest ih =>
    rw [List.map_cons, List.nodup_cons] at hn
    rw [toFn_cons, lookupK]
    by_cases h : e.1 = x
    · rw [if_pos h, if_pos h]
      have hz : toFn rest x = 0 := by
        apply toFn_eq_zero_of_ne
        intro e' he' hx
        exact hn.1 (by rw [h, ← hx]; exact List.mem_map_of_mem Prod.fst he')
      rw [hz]
      simp
    · rw [if_neg h, if_neg h, ih hn.2]
      simp

/-- One level of flattening of a nested association list. -/
def flatOne (l : List (K × List (J × Int))) : List ((K × J) × Int) :=
  l.flatMap (fun e => e.2.map (fun p => ((e.1, p.1), p.2)))

lemma flatOne_mem (l : List (K × List (J × Int))) :
    ∀ q ∈ flatOne l, q.1.1 ∈ l.map Prod.fst := by
  intro q hq
  rw [flatOne, List.mem_flatMap] at hq
  obtain ⟨e, he, hq'⟩ := hq
  rw [List.mem_map] at hq'
  obtain ⟨p, _, hp⟩ := hq'
  rw [← hp]
  exact List.mem_map_of_mem Prod.fst he

lemma toFn_map_pair_self [DecidableEq K] [DecidableEq J] (k : K)
    (vs : List (J × Int)) (j : J) :
    toFn (vs.map (fun p => ((k, p.1), p.2))) (k, j) = toFn vs j := by
  induction vs with
  | nil => rfl
  | cons p rest ih =>
    rw [List.map_cons, toFn_cons, toFn_cons, ih]
    by_cases h : p.1 = j
    · rw [if_pos h, if_pos (by simp [h])]
    · rw [if_neg h, if_neg (by simp [h])]

lemma toFn_map_pair_ne [DecidableEq K] [DecidableEq J] (k k' : K) (hne : k' ≠ k)
    (vs : List (J × Int)) (j : J) :
    toFn (vs.map (fun p => ((k', p.1), p.2))) (k, j) = 0 := by
  apply toFn_eq_zero_of_ne
  intro e he
  rw [List.mem_map] at he
  obtain ⟨p, _, hp⟩ := he
  rw [← hp]
  intro hcontra
  exact hne (congrArg Prod.fst hcontra)

lemma toFn_flatOne [DecidableEq K] [DecidableEq J] (l : List (K × List (J × Int)))
    (hn : (l.map Prod.fst).Nodup) (k : K) (j : J) :
    toFn (flatOne l) (k, j) = toFn ((lookupK k l).getD []) j := by
  induction l with
  | nil => rfl
  | cons e rest ih =>
    rw [List.map_cons, List.nodup_cons] at hn
    have happ : flatOne (e :: rest) =
        e.2.map (fun p => ((e.1, p.1), p.2)) ++ flatOne rest := rfl
    rw [happ, toFn_append, lookupK]
    by_cases h : e.1 = k
    · subst h
      rw [if_pos rfl]
      have hz : toFn (flatOne rest) (e.1, j) = 0 := by
        apply toFn_eq_zero_of_ne
        intro q hq hx
        apply hn.1
        have h2 := flatOne_mem rest q hq
        rw [hx] at h2
        exact h2
      rw [hz, toFn_map_pair_self]
      simp
    · rw [if_neg h, toFn_map_pair_ne _ _ h, zero_add, ih hn.2]

lemma lookupK_map_val [DecidableEq K] (k : K) (g : β → γ) :
    ∀ l : List (K × β),
      lookupK k (l.map (fun e => (e.1, g e.2))) = (lookupK k l).map g := by
  intro l
  induction l with
  | nil => rfl
  | cons e rest ih =>
    rw [List.map_cons, lookupK, lookupK]
    by_cases h : e.1 = k
    · rw [if_pos h, if_pos h]
      rfl
    · rw [if_neg h, if_neg h, ih]

lemma lookupK_mem [DecidableEq K] (k : K) (v : β) :
    ∀ l : List (K × β), lookupK k l = some v → (k, v) ∈ l := by
  intro l
  induction l with
  | nil => intro h; exact absurd h (by simp [lookupK])
  | cons e rest ih =>
    intro h
    rw [lookupK] at h
    by_cases he : e.1 = k
    · rw [if_pos he] at h
      injection h with h'
      exact List.mem_cons.mpr (Or.inl (by rw [← he, ← h']))
    · rw [if_neg he] at h
      exact List.mem_cons_of_mem _ (ih h)

/-! ## Concrete batch types

The concrete instantiation used by the rolling-aggregate claims:
partition keys and timestamps are `Nat`, payload values and weights are
`Int`, aggregation accumulators and outputs are `Int` (the linear
aggregator), and output rows carry `Option Int` aggregates. -/

/-- Values with weights within one (partition, timestamp). -/
abbrev ValList := List (Int × Int)

/-- One partition of an input batch: timestamp ↦ values. -/
abbrev TsList := List (Nat × ValList)

/-- A partitioned indexed Z-set batch: partition ↦ timestamps. -/
abbrev PBatch := List (Nat × TsList)

/-- Aggregate outputs with weights within one (partition, timestamp). -/
abbrev OValList := List (Option Int × Int)

/-- One partition of an output batch. -/
abbrev OTsList := List (Nat × OValList)

/-- An output batch / output trace. -/
abbrev OBatch := List (Nat × OTsList)

/-- A key of the input weight function: `(pk, (ts, v))`. -/
abbrev InKey := Nat × Nat × Int

/-- A key of the output weight function: `(pk, (ts, aggregate))`. -/
abbrev OutKey := Nat × Nat × Option Int

/-- An output tuple with its weight. -/
abbrev OutRow := OutKey × Int

/-- Canonical value lists: distinct values, nonzero weights. -/
abbrev ValWF (vs : ValList) : Prop := KWF (fun w : Int => w ≠ 0) vs

/-- Canonical partition data: distinct timestamps, canonical nonempty
value lists. -/
abbrev TsWF (t : TsList) : Prop := KWF (fun vs => ValWF vs ∧ vs ≠ []) t

/-- Canonical batches: distinct partitions, canonical nonempty partition
data. -/
abbrev PWF (b : PBatch) : Prop := KWF (fun t => TsWF t ∧ t ≠ []) b

/-- Canonical output value lists. -/
abbrev OValWF (vs : OValList) : Prop := KWF (fun w : Int => w ≠ 0) vs

/-- Canonical output partition data. -/
abbrev OTsWF (t : OTsList) : Prop := KWF (fun vs => OValWF vs ∧ vs ≠ []) t

/-- Canonical output batches. -/
abbrev OWF (o : OBatch) : Prop := KWF (fun t => OTsWF t ∧ t ≠ []) o

/-- The partition data at `pk` (`seek_key(pk)` followed by the equality
check; empty when the partition is absent). -/
def partT (b : PBatch) (pk : Nat) : TsList := (lookupK pk b).getD []

/-- The output-trace partition data at `pk`. -/
def partO (o : OBatch) (pk : Nat) : OTsList := (lookupK pk o).getD []

/-- The values of a partition at timestamp `ts`. -/
def valsAt (t : TsList) (ts : Nat) : ValList := (lookupK ts t).getD []

/-- The weight of `(pk, ts, v)` in a batch. -/
def wOfP (b : PBatch) (pk ts : Nat) (v : Int) : Int :=
  (lookupK v (valsAt (partT b pk) ts)).getD 0

/-- The weight of `(pk, (ts, a))` in an output batch. -/
def wOfO (o : OBatch) (pk ts : Nat) (a : Option Int) : Int :=
  (lookupK a ((lookupK ts (partO o pk)).getD [])).getD 0

/-- Flattening a batch to its tuples. -/
def flatP (b : PBatch) : List (InKey × Int) :=
  flatOne (b.map (fun e => (e.1, flatOne e.2)))

/-- Flattening an output batch to its tuples. -/
def flatO (o : OBatch) : List OutRow :=
  flatOne (o.map (fun e => (e.1, flatOne e.2)))

lemma toFn_flatP (b : PBatch) (hWF : PWF b) (pk ts : Nat) (v : Int) :
    toFn (flatP b) (pk, ts, v) = wOfP b pk ts v := by
  unfold flatP wOfP partT valsAt
  have hkeys : ((b.map (fun e => (e.1, flatOne e.2))).map Prod.fst).Nodup := by
    rw [List.map_map]
    exact hWF.1
  rw [toFn_flatOne _ hkeys, lookupK_map_val]
  cases hl : lookupK pk b with
  | none => rfl
  | some t =>
    simp only [Option.map_some', Option.getD_some]
    have hts : TsWF t := (hWF.2 (pk, t) (lookupK_mem pk t b hl)).1
    rw [toFn_flatOne _ hts.1]
    cases hl2 : lookupK ts t with
    | none => rfl
    | some vs =>
      simp only [Option.getD_some]
      exact toFn_eq_lookup vs (hts.2 (ts, vs) (lookupK_mem ts vs t hl2)).1.1 v

lemma toFn_flatO (o : OBatch) (hWF : OWF o) (pk ts : Nat) (a : Option Int) :
    toFn (flatO o) (pk, ts, a) = wOfO o pk ts a := by
  unfold flatO wOfO partO
  have hkeys : ((o.map (fun e => (e.1, flatOne e.2))).map Prod.fst).Nodup := by
    rw [List.map_map]
    exact hWF.1
  rw [toFn_flatOne _ hkeys, lookupK_map_val]
  cases hl : lookupK pk o with
  | none => rfl
  | some t =>
    simp only [Option.map_some', Option.getD_some]
    have hts : OTsWF t := (hWF.2 (pk, t) (lookupK_mem pk t o hl)).1
    rw [toFn_flatOne _ hts.1]
    cases hl2 : lookupK ts t with
    | none => rfl
    | some vs =>
      simp only [Option.getD_some]
      exact toFn_eq_lookup vs (hts.2 (ts, vs) (lookupK_mem ts vs t hl2)).1.1 a

/-! ## Canonical integration (trace `insert` followed by consolidation) -/

/-- Add weight `w` at value `v`. -/
def addW (v w : Int) (vs : ValList) : ValList :=
  addK v (fun x => x + w) 0 (fun x => decide (x = 0)) vs

/-- Add weight `w` at `(ts, v)`. -/
def addTsW (ts : Nat) (v w : Int) (t : TsList) : TsList :=
  addK ts (addW v w) [] (fun vs => vs.isEmpty) t

/-- Add weight `w` at `(pk, ts, v)`. -/
def addPW (pk ts : Nat) (v w : Int) (b : PBatch) : PBatch :=
  addK pk (addTsW ts v w) [] (fun t => t.isEmpty) b

/-- Add weight `w` at aggregate value `a`. -/
def addOValW (a : Option Int) (w : Int) (vs : OValList) : OValList :=
  addK a (fun x => x + w) 0 (fun x => decide (x = 0)) vs

/-- Add weight `w` at `(ts, a)`. -/
def addOTsW (ts : Nat) (a : Option Int) (w : Int) (t : OTsList) : OTsList :=
  addK ts (addOValW a w) [] (fun vs => vs.isEmpty) t

/-- Add weight `w` at `(pk, (ts, a))`. -/
def addOW (pk ts : Nat) (a : Option Int) (w : Int) (o : OBatch) : OBatch :=
  addK pk (addOTsW ts a w) [] (fun t => t.isEmpty) o

/-- Fold a list of tuples into a batch. -/
def integrateP (b : PBatch) (rows : List (InKey × Int)) : PBatch :=
  rows.foldl (fun acc row => addPW row.1.1 row.1.2.1 row.1.2.2 row.2 acc) b

/-- The integral of a trace and one further delta batch. -/
def integrateDelta (trace delta : PBatch) : PBatch :=
  integrateP trace (flatP delta)

/-- Fold a list of output rows into an output batch. -/
def integrateO (o : OBatch) (rows : List OutRow) : OBatch :=
  rows.foldl (fun acc row => addOW row.1.1 row.1.2.1 row.1.2.2 row.2 acc) o

lemma ValWF_nil : ValWF [] := ⟨by simp, by simp⟩

lemma TsWF_nil : TsWF [] := ⟨by simp, by simp⟩

lemma OValWF_nil : OValWF [] := ⟨by simp, by simp⟩

lemma OTsWF_nil : OTsWF [] := ⟨by simp, by simp⟩

lemma ValWF_addW (v w : Int) (vs : ValList) (h : ValWF vs) : ValWF (addW v w vs) := by
  apply KWF_addK
  · intro hemp
    exact of_decide_eq_false hemp
  · intro b _ hemp
    exact of_decide_eq_false hemp
  · exact h

lemma TsWF_addTsW (ts : Nat) (v w : Int) (t : TsList) (h : TsWF t) :
    TsWF (addTsW ts v w t) := by
  apply KWF_addK
  · intro hemp
    refine ⟨ValWF_addW v w [] ValWF_nil, ?_⟩
    intro hc
    rw [hc] at hemp
    simp at hemp
  · intro b hb hemp
    refine ⟨ValWF_addW v w b hb.1, ?_⟩
    intro hc
    rw [hc] at hemp
    simp at hemp
  · exact h

lemma PWF_addPW (pk ts : Nat) (v w : Int) (b : PBatch) (h : PWF b) :
    PWF (addPW pk ts v w b) := by
  apply KWF_addK
  · intro hemp
    refine ⟨TsWF_addTsW ts v w [] TsWF_nil, ?_⟩
    intro hc
    rw [hc] at hemp
    simp at hemp
  · intro t ht hemp
    refine ⟨TsWF_addTsW ts v w t ht.1, ?_⟩
    intro hc
    rw [hc] at hemp
    simp at hemp
  · exact h

lemma OValWF_addOValW (a : Option Int) (w : Int) (vs : OValList) (h : OValWF vs) :
    OValWF (addOValW a w vs) := by
  apply KWF_addK
  · intro hemp
    exact of_decide_eq_false hemp
  · intro b _ hemp
    exact of_decide_eq_false hemp
  · exact h

lemma OTsWF_addOTsW (ts : Nat) (a : Option Int) (w : Int) (t : OTsList) (h : OTsWF t) :
    OTsWF (addOTsW ts a w t) := by
  apply KWF_addK
  · intro hemp
    refine ⟨OValWF_addOValW a w [] OValWF_nil, ?_⟩
    intro hc
    rw [hc] at hemp
    simp at hemp
  · intro b hb hemp
    refine ⟨OValWF_addOValW a w b hb.1, ?_⟩
    intro hc
    rw [hc] at hemp
    simp at hemp
  · exact h

lemma OWF_addOW (pk ts : Nat) (a : Option Int) (w : Int) (o : OBatch) (h : OWF o) :
    OWF (addOW pk ts a w o) := by
  apply KWF_addK
  · intro hemp
    refine ⟨OTsWF_addOTsW ts a w [] OTsWF_nil, ?_⟩
    intro hc
    rw [hc] at hemp
    simp at hemp
  · intro t ht hemp
    refine ⟨OTsWF_addOTsW ts a w t ht.1, ?_⟩
    intro hc
    rw [hc] at hemp
    simp at hemp
  · exact h

lemma PWF_integrateP (rows : List (InKey × Int)) :
    ∀ b : PBatch, PWF b → PWF (integrateP b rows) := by
  induction rows with
  | nil => intro b h; exact h
  | cons row rest ih =>
    intro b h
    exact ih _ (PWF_addPW _ _ _ _ b h)

lemma OWF_integrateO (rows : List OutRow) :
    ∀ o : OBatch, OWF o → OWF (integrateO o rows) := by
  induction rows with
  | nil => intro o h; exact h
  | cons row rest ih =>
    intro o h
    exact ih _ (OWF_addOW _ _ _ _ o h)

/-- The generic weight-shift law of one keyed update: reading through any
level-respecting `read` function, `addK` shifts the entry at `k` by `δ` and
leaves every other entry alone. -/
lemma read_lookup_addK [DecidableEq K] (k k' : K) (f : β → β) (init : β)
    (isEmpty : β → Bool) (read : β → Int) (Good : β → Prop) (δ : Int)
    (hf : ∀ b, Good b → read (f b) = read b + δ)
    (hempty : ∀ b, isEmpty b = true → read b = read init)
    (l : List (K × β)) (hn : (l.map Prod.fst).Nodup)
    (hGood : ∀ e ∈ l, Good e.2) (hGoodInit : Good init) :
    read ((lookupK k' (addK k f init isEmpty l)).getD init) =
      read ((lookupK k' l).getD init) + (if k = k' then δ else 0) := by
  by_cases h : k' = k
  · subst h
    rw [lookupK_addK_self _ _ _ _ l hn, if_pos rfl]
    have hGoodOld : Good ((lookupK k' l).getD init) := by
      cases hl : lookupK k' l with
      | none => exact hGoodInit
      | some b => exact hGood _ (lookupK_mem _ _ l hl)
    split
    · rename_i hemp
      rw [Option.getD_none, ← hempty _ hemp]
      exact hf _ hGoodOld
    · rw [Option.getD_some]
      exact hf _ hGoodOld
  · rw [lookupK_addK_ne k k' h, if_neg (fun hc => h hc.symm)]
    simp

lemma getD_addW (v w : Int) (vs : ValList) (hn : (vs.map Prod.fst).Nodup) (v' : Int) :
    (lookupK v' (addW v w vs)).getD 0 =
      (lookupK v' vs).getD 0 + (if v = v' then w else 0) := by
  rw [addW]
  exact read_lookup_addK v v' (fun x => x + w) 0 (fun x => decide (x = 0))
    (fun x => x) (fun _ => True) w (fun b _ => rfl)
    (fun b hb => of_decide_eq_true hb) vs hn (fun _ _ => trivial) trivial

lemma getD_addTsW (ts : Nat) (v w : Int) (t : TsList) (hwf : TsWF t)
    (ts' : Nat) (v' : Int) :
    (lookupK v' ((lookupK ts' (addTsW ts v w t)).getD [])).getD 0 =
      (lookupK v' ((lookupK ts' t).getD [])).getD 0 +
        (if ts = ts' then (if v = v' then w else 0) else 0) := by
  rw [addTsW]
  exact read_lookup_addK ts ts' (addW v w) [] (fun vs => vs.isEmpty)
    (fun vs => (lookupK v' vs).getD 0) (fun vs => (vs.map Prod.fst).Nodup)
    (if v = v' then w else 0)
    (fun vs hvs => getD_addW v w vs hvs v')
    (fun vs hvs => by rw [List.isEmpty_iff.mp hvs])
    t hwf.1 (fun e he => (hwf.2 e he).1.1) (by simp)

lemma wOfP_addPW_eq (pk ts : Nat) (v w : Int) (b : PBatch) (hwf : PWF b)
    (pk' ts' : Nat) (v' : Int) :
    wOfP (addPW pk ts v w b) pk' ts' v' =
      wOfP b pk' ts' v' +
        (if pk = pk' then (if ts = ts' then (if v = v' then w else 0) else 0)
         else 0) := by
  unfold wOfP partT valsAt
  rw [addPW]
  exact read_lookup_addK pk pk' (addTsW ts v w) [] (fun t => t.isEmpty)
    (fun t => (lookupK v' ((lookupK ts' t).getD [])).getD 0)
    (fun t => TsWF t) (if ts = ts' then (if v = v' then w else 0) else 0)
    (fun t ht => getD_addTsW ts v w t ht ts' v')
    (fun t ht => by rw [List.isEmpty_iff.mp ht])
    b hwf.1 (fun e he => (hwf.2 e he).1) TsWF_nil

lemma getD_addOValW (a : Option Int) (w : Int) (vs : OValList)
    (hn : (vs.map Prod.fst).Nodup) (a' : Option Int) :
    (lookupK a' (addOValW a w vs)).getD 0 =
      (lookupK a' vs).getD 0 + (if a = a' then w else 0) := by
  rw [addOValW]
  exact read_lookup_addK a a' (fun x => x + w) 0 (fun x => decide (x = 0))
    (fun x => x) (fun _ => True) w (fun b _ => rfl)
    (fun b hb => of_decide_eq_true hb) vs hn (fun _ _ => trivial) trivial

lemma getD_addOTsW (ts : Nat) (a : Option Int) (w : Int) (t : OTsList)
    (hwf : OTsWF t) (ts' : Nat) (a' : Option Int) :
    (lookupK a' ((lookupK ts' (addOTsW ts a w t)).getD [])).getD 0 =
      (lookupK a' ((lookupK ts' t).getD [])).getD 0 +
        (if ts = ts' then (if a = a' then w else 0) else 0) := by
  rw [addOTsW]
  exact read_lookup_addK ts ts' (addOValW a w) [] (fun vs => vs.isEmpty)
    (fun vs => (lookupK a' vs).getD 0) (fun vs => (vs.map Prod.fst).Nodup)
    (if a = a' then w else 0)
    (fun vs hvs => getD_addOValW a w vs hvs a')
    (fun vs hvs => by rw [List.isEmpty_iff.mp hvs])
    t hwf.1 (fun e he => (hwf.2 e he).1.1) (by simp)

lemma wOfO_addOW_eq (pk ts : Nat) (a : Option Int) (w : Int) (o : OBatch)
    (hwf : OWF o) (pk' ts' : Nat) (a' : Option Int) :
    wOfO (addOW pk ts a w o) pk' ts' a' =
      wOfO o pk' ts' a' +
        (if pk = pk' then (if ts = ts' then (if a = a' then w else 0) else 0)
         else 0) := by
  unfold wOfO partO
  rw [addOW]
  exact read_lookup_addK pk pk' (addOTsW ts a w) [] (fun t => t.isEmpty)
    (fun t => (lookupK a' ((lookupK ts' t).getD [])).getD 0)
    (fun t => OTsWF t) (if ts = ts' then (if a = a' then w else 0) else 0)
    (fun t ht => getD_addOTsW ts a w t ht ts' a')
    (fun t ht => by rw [List.isEmpty_iff.mp ht])
    o hwf.1 (fun e he => (hwf.2 e he).1) OTsWF_nil

lemma ite_key_in (pk pk' ts ts' : Nat) (v v' w : Int) :
    (if pk = pk' then (if ts = ts' then (if v = v' then w else 0) else 0) else 0) =
      (if ((pk, ts, v) : InKey) = ((pk', ts', v') : InKey) then w else 0) := by
  by_cases h1 : pk = pk' <;> by_cases h2 : ts = ts' <;> by_cases h3 : v = v' <;>
    simp [h1, h2, h3, Prod.ext_iff]

lemma ite_key_out (pk pk' ts ts' : Nat) (a a' : Option Int) (w : Int) :
    (if pk = pk' then (if ts = ts' then (if a = a' then w else 0) else 0) else 0) =
      (if ((pk, ts, a) : OutKey) = ((pk', ts', a') : OutKey) then w else 0) := by
  by_cases h1 : pk = pk' <;> by_cases h2 : ts = ts' <;> by_cases h3 : a = a' <;>
    simp [h1, h2, h3, Prod.ext_iff]

lemma wOfP_integrateP (rows : List (InKey × Int)) :
    ∀ (b : PBatch), PWF b → ∀ (pk ts : Nat) (v : Int),
      wOfP (integrateP b rows) pk ts v = wOfP b pk ts v + toFn rows (pk, ts, v) := by
  induction rows with
  | nil =>
    intro b _ pk ts v
    rw [toFn_nil]
    simp [integrateP]
  | cons row rest ih =>
    intro b hwf pk ts v
    have h1 := ih (addPW row.1.1 row.1.2.1 row.1.2.2 row.2 b)
      (PWF_addPW _ _ _ _ b hwf) pk ts v
    rw [show integrateP b (row :: rest) =
      integrateP (addPW row.1.1 row.1.2.1 row.1.2.2 row.2 b) rest from rfl]
    rw [h1, wOfP_addPW_eq _ _ _ _ b hwf, ite_key_in, toFn_cons]
    have heta : ((row.1.1, row.1.2.1, row.1.2.2) : InKey) = row.1 := rfl
    rw [heta]
    ring

lemma wOfO_integrateO (rows : List OutRow) :
    ∀ (o : OBatch), OWF o → ∀ (pk ts : Nat) (a : Option Int),
      wOfO (integrateO o rows) pk ts a = wOfO o pk ts a + toFn rows (pk, ts, a) := by
  induction rows with
  | nil =>
    intro o _ pk ts a
    rw [toFn_nil]
    simp [integrateO]
  | cons row rest ih =>
    intro o hwf pk ts a
    have h1 := ih (addOW row.1.1 row.1.2.1 row.1.2.2 row.2 o)
      (OWF_addOW _ _ _ _ o hwf) pk ts a
    rw [show integrateO o (row :: rest) =
      integrateO (addOW row.1.1 row.1.2.1 row.1.2.2 row.2 o) rest from rfl]
    rw [h1, wOfO_addOW_eq _ _ _ _ o hwf, ite_key_out, toFn_cons]
    have heta : ((row.1.1, row.1.2.1, row.1.2.2) : OutKey) = row.1 := rfl
    rw [heta]
    ring

/-! ## The rolling-aggregate operator
(`rolling_aggregate.rs`, `PartitionedRollingAggregate::eval` and its
reference implementation `partitioned_rolling_aggregate_slow`) -/

/-- Combining two optional accumulators (`DefaultSemigroup<A>` lifted to
`Option`; `None` is the identity of the empty fold). -/
def optAdd : Option Int → Option Int → Option Int
  | none, b => b
  | some a, none => some a
  | some a, some b => some (a + b)

/-- Modelled from the spec: `aggregate_range(q)` on one partition of the
radix tree — the semigroup combination of the leaf accumulators (the
aggregator applied to the values of one timestamp) over all populated
timestamps in `[q.lo, q.hi]`.  `radix_tree.rs` is outside the sampled
slice; by the radix-tree invariant the query result is determined by the
integrated input restricted to the partition. -/
def treeAggregate (f : Int → Int) (t : TsList) (q : TsRange) : Option Int :=
  (t.filter (fun e => q.memB e.1)).foldl
    (fun acc e => optAdd acc (LinearAggregator.aggregate f e.2)) none

/-- `PartitionedRollingAggregate::affected_ranges`: the union of the
affected range of every changed timestamp with the singleton range of every
changed timestamp.  `Ranges::push_monotonic`/`merge` (outside the sampled
slice) only canonicalize the list; a `RangeCursor` observes the covered
set, modelled by `inRanges`. -/
def affectedRangesOf (r : RelRange) (deltaKeys : List Nat) : List TsRange :=
  deltaKeys.filterMap r.affected_range_of ++ deltaKeys.map (fun k => ⟨k, k⟩)

/-- Membership of a timestamp in the set covered by a range list. -/
def inRanges (rs : List TsRange) (ts : Nat) : Bool :=
  rs.any (fun q => q.memB ts)

/-- The retraction half of one `eval` call for one partition: over the
previous output trace restricted to the affected ranges, every value with
non-zero weight is emitted with negated weight. -/
def retractionsFor (pk : Nat) (rs : List TsRange) (outP : OTsList) : List OutRow :=
  (outP.filter (fun e => inRanges rs e.1)).flatMap (fun e =>
    (e.2.filter (fun aw => decide (aw.2 ≠ 0))).map (fun aw =>
      ((pk, (e.1, aw.1)), -aw.2)))

/-- The insertion half of one `eval` call for one partition: over the input
trace restricted to the affected ranges, each timestamp whose window
resolves and that carries at least one positively-weighted payload emits
one row (`+1`) with the finalized range aggregate (`None` when the range
is empty). -/
def insertionsFor (f output_func : Int → Int) (r : RelRange) (pk : Nat)
    (rs : List TsRange) (inP : TsList) : List OutRow :=
  (inP.filter (fun e => inRanges rs e.1)).filterMap (fun e =>
    match r.range_of e.1 with
    | none => none
    | some q =>
      if e.2.any (fun vw => decide (0 < vw.2)) then
        some ((pk, (e.1, (treeAggregate f inP q).map
          (LinearAggregator.finalize output_func))), 1)
      else none)

/-- Lean embedding of `PartitionedRollingAggregate::eval`: for every
partition of the input delta, retract previous outputs over the affected
ranges, then insert the recomputed rows; the output delta is the sum of the
two builders (`retractions.add(insertions)`, modelled by concatenation of
the emitted tuples). -/
def evalRolling (f output_func : Int → Int) (r : RelRange)
    (delta inT : PBatch) (outT : OBatch) : List OutRow :=
  delta.flatMap (fun e =>
    retractionsFor e.1 (affectedRangesOf r (e.2.map Prod.fst)) (partO outT e.1)) ++
  delta.flatMap (fun e =>
    insertionsFor f output_func r e.1 (affectedRangesOf r (e.2.map Prod.fst))
      (partT inT e.1))

/-- Lean embedding of the reference `aggregate_range_slow`: the flat
weighted fold over all values of the partition whose timestamps lie in the
query range. -/
def aggregate_range_slow (f : Int → Int) (b : PBatch) (pk : Nat) (q : TsRange) :
    Option Int :=
  LinearAggregator.aggregate f
    (((partT b pk).filter (fun e => q.memB e.1)).flatMap (fun e => e.2))

/-- Lean embedding of the row generation of the reference
`partitioned_rolling_aggregate_slow` on an integrated input batch: one row
per (partition, timestamp, value) tuple whose window resolves, carrying the
finalized reference aggregate. -/
def refRows (f output_func : Int → Int) (r : RelRange) (b : PBatch) : List OutRow :=
  b.flatMap (fun e => e.2.flatMap (fun e2 => e2.2.filterMap (fun _ =>
    match r.range_of e2.1 with
    | none => none
    | some q =>
      some ((e.1, (e2.1, (aggregate_range_slow f b e.1 q).map
        (LinearAggregator.finalize output_func))), 1))))

/-- `stream_distinct` applied to the reference rows: the reference output
Z-set of the integrated input. -/
def refFn (f output_func : Int → Int) (r : RelRange) (b : PBatch) (x : OutKey) : Int :=
  if 0 < toFn (refRows f output_func r b) x then 1 else 0

/-- One tick of the `partitioned_rolling_aggregate` circuit: the input
trace (`integrate_trace`) absorbs the current delta, `eval` runs on
(delta, input trace, tree, delayed output trace), and the output trace
(`UntimedTraceAppend` behind `Z1Trace`) absorbs the output delta. -/
def stepRolling (f output_func : Int → Int) (r : RelRange)
    (s : PBatch × OBatch) (delta : PBatch) : PBatch × OBatch :=
  (integrateDelta s.1 delta,
   integrateO s.2 (evalRolling f output_func r delta (integrateDelta s.1 delta) s.2))

/-- Running the circuit from the empty state over a sequence of deltas. -/
def runRolling (f output_func : Int → Int) (r : RelRange)
    (deltas : List PBatch) : PBatch × OBatch :=
  deltas.foldl (stepRolling f output_func r) ([], [])

/-- All weights of a batch are positive (a non-negative consolidated
integral). -/
abbrev AllPos (b : PBatch) : Prop :=
  ∀ e ∈ b, ∀ e2 ∈ e.2, ∀ vw ∈ e2.2, 0 < vw.2

lemma mem_iff_lookupK [DecidableEq K] (l : List (K × β))
    (hn : (l.map Prod.fst).Nodup) (k : K) (b : β) :
    (k, b) ∈ l ↔ lookupK k l = some b := by
  constructor
  · intro h
    induction l with
    | nil => simp at h
    | cons e rest ih =>
      rw [List.map_cons, List.nodup_cons] at hn
      rcases List.mem_cons.mp h with heq | hmem
      · rw [lookupK, if_pos (by rw [← heq]), ← heq]
      · have hne : e.1 ≠ k := by
          intro hc
          exact hn.1 (by rw [hc]; exact List.mem_map_of_mem Prod.fst hmem)
        rw [lookupK, if_neg hne]
        exact ih hn.2 hmem
  · exact lookupK_mem k b l

lemma TsWF_partT (b : PBatch) (hwf : PWF b) (pk : Nat) : TsWF (partT b pk) := by
  unfold partT
  cases hl : lookupK pk b with
  | none => exact TsWF_nil
  | some t => exact (hwf.2 (pk, t) (lookupK_mem pk t b hl)).1

lemma OTsWF_partO (o : OBatch) (hwf : OWF o) (pk : Nat) : OTsWF (partO o pk) := by
  unfold partO
  cases hl : lookupK pk o with
  | none => exact OTsWF_nil
  | some t => exact (hwf.2 (pk, t) (lookupK_mem pk t o hl)).1

lemma mem_retractionsFor (pk : Nat) (rs : List TsRange) (outP : OTsList)
    (row : OutRow) :
    row ∈ retractionsFor pk rs outP ↔
      ∃ e ∈ outP, inRanges rs e.1 = true ∧ ∃ aw ∈ e.2, aw.2 ≠ 0 ∧
        row = ((pk, (e.1, aw.1)), -aw.2) := by
  unfold retractionsFor
  constructor
  · intro h
    rw [List.mem_flatMap] at h
    obtain ⟨e, he, hrow⟩ := h
    rw [List.mem_filter] at he
    rw [List.mem_map] at hrow
    obtain ⟨aw, haw, hrow'⟩ := hrow
    rw [List.mem_filter] at haw
    exact ⟨e, he.1, he.2, aw, haw.1, by simpa using haw.2, hrow'.symm⟩
  · rintro ⟨e, he, hr, aw, haw, hw, rfl⟩
    rw [List.mem_flatMap]
    refine ⟨e, List.mem_filter.mpr ⟨he, hr⟩, ?_⟩
    rw [List.mem_map]
    exact ⟨aw, List.mem_filter.mpr ⟨haw, by simpa using hw⟩, rfl⟩

lemma mem_insertionsFor (f output_func : Int → Int) (r : RelRange) (pk : Nat)
    (rs : List TsRange) (inP : TsList) (row : OutRow) :
    row ∈ insertionsFor f output_func r pk rs inP ↔
      ∃ e ∈ inP, inRanges rs e.1 = true ∧ ∃ q, r.range_of e.1 = some q ∧
        (∃ vw ∈ e.2, 0 < vw.2) ∧
        row = ((pk, (e.1, (treeAggregate f inP q).map
          (LinearAggregator.finalize output_func))), 1) := by
  unfold insertionsFor
  constructor
  · intro h
    rw [List.mem_filterMap] at h
    obtain ⟨e, he, hm⟩ := h
    rw [List.mem_filter] at he
    cases hq : r.range_of e.1 with
    | none =>
      rw [hq] at hm
      exact absurd hm (by simp)
    | some q =>
      rw [hq] at hm
      dsimp only at hm
      by_cases hany : e.2.any (fun vw => decide (0 < vw.2))
      · rw [if_pos hany] at hm
        refine ⟨e, he.1, he.2, q, hq, ?_, (Option.some.inj hm).symm⟩
        rw [List.any_eq_true] at hany
        obtain ⟨vw, hvw, hpos⟩ := hany
        exact ⟨vw, hvw, by simpa using hpos⟩
      · rw [if_neg hany] at hm
        exact absurd hm (by simp)
  · rintro ⟨e, he, hr, q, hq, hpos, rfl⟩
    rw [List.mem_filterMap]
    refine ⟨e, List.mem_filter.mpr ⟨he, hr⟩, ?_⟩
    have hany : e.2.any (fun vw => decide (0 < vw.2)) = true := by
      rw [List.any_eq_true]
      obtain ⟨vw, hvw, hp⟩ := hpos
      exact ⟨vw, hvw, by simpa using hp⟩
    rw [hq]
    dsimp only
    rw [if_pos hany]

/-- C3: one `eval` call emits the retraction `((PK, (TS, prev_agg)), -w)`
exactly when `PK` occurs in the input delta, `TS` lies in the affected
ranges computed from the delta, and the previous output trace holds
`(TS, prev_agg)` at `PK` with non-zero weight `w`; no other retraction is
emitted. -/
theorem rolling_retraction_spec (r : RelRange) (delta : PBatch) (outT : OBatch)
    (hd : PWF delta) (hout : OWF outT) (pk ts : Nat) (a : Option Int) (w : Int) :
    ((pk, (ts, a)), -w) ∈ delta.flatMap (fun e =>
        retractionsFor e.1 (affectedRangesOf r (e.2.map Prod.fst)) (partO outT e.1)) ↔
      ((∃ dP, lookupK pk delta = some dP ∧
          inRanges (affectedRangesOf r (dP.map Prod.fst)) ts = true) ∧
        wOfO outT pk ts a = w ∧ w ≠ 0) := by
  rw [List.mem_flatMap]
  constructor
  · rintro ⟨e, he, hrow⟩
    rw [mem_retractionsFor] at hrow
    obtain ⟨e2, he2, hr, aw, haw, hw0, heq⟩ := hrow
    have hpk : pk = e.1 := congrArg (fun z => z.1.1) heq
    have hts : ts = e2.1 := congrArg (fun z => z.1.2.1) heq
    have ha : a = aw.1 := congrArg (fun z => z.1.2.2) heq
    have hw : w = aw.2 := by
      have h2 := congrArg (fun z => z.2) heq
      simp only at h2
      omega
    subst hpk
    subst hts
    subst ha
    have hOP : OTsWF (partO outT e.1) := OTsWF_partO outT hout e.1
    have hl2 : lookupK e2.1 (partO outT e.1) = some e2.2 :=
      (mem_iff_lookupK _ hOP.1 _ _).mp he2
    have hOV : OValWF e2.2 := (hOP.2 e2 he2).1
    have hl3 : lookupK aw.1 e2.2 = some aw.2 :=
      (mem_iff_lookupK _ hOV.1 _ _).mp haw
    refine ⟨⟨e.2, (mem_iff_lookupK delta hd.1 e.1 e.2).mp he, hr⟩, ?_, by omega⟩
    unfold wOfO
    rw [hl2]
    simp only [Option.getD_some]
    rw [hl3]
    simp only [Option.getD_some]
    omega
  · rintro ⟨⟨dP, hdP, hr⟩, hw, hw0⟩
    refine ⟨(pk, dP), (mem_iff_lookupK delta hd.1 pk dP).mpr hdP, ?_⟩
    unfold wOfO at hw
    cases hl2 : lookupK ts (partO outT pk) with
    | none =>
      rw [hl2] at hw
      simp [lookupK] at hw
      omega
    | some vs =>
      rw [hl2] at hw
      simp only [Option.getD_some] at hw
      cases hl3 : lookupK a vs with
      | none =>
        rw [hl3] at hw
        simp at hw
        omega
      | some w' =>
        rw [hl3] at hw
        simp only [Option.getD_some] at hw
        rw [mem_retractionsFor]
        refine ⟨(ts, vs), lookupK_mem _ _ _ hl2, hr, (a, w'),
          lookupK_mem _ _ _ hl3, ?_, ?_⟩
        · show w' ≠ 0
          omega
        · show _ = ((pk, (ts, a)), -w')
          rw [hw]

/-- Witness for C3: a concrete delta touching partition 0 at timestamp 10
retracts the previously emitted row `(10, Some 5)` with weight `-1`. -/
theorem rolling_retraction_spec_witness :
    (((0 : Nat), ((10 : Nat), (some 5 : Option Int))), (-1 : Int)) ∈
      ([(0, [(10, [((1 : Int), (1 : Int))])])] : PBatch).flatMap (fun e =>
        retractionsFor e.1
          (affectedRangesOf ⟨.Before 1000, .Before 0⟩ (e.2.map Prod.fst))
          (partO [(0, [(10, [(some 5, 1)])])] e.1)) :=
  (rolling_retraction_spec ⟨.Before 1000, .Before 0⟩
      [(0, [(10, [(1, 1)])])] [(0, [(10, [(some 5, 1)])])]
      (by decide) (by decide) 0 10 (some 5) 1).mpr
    ⟨⟨[(10, [(1, 1)])], rfl, by decide⟩, by decide, by decide⟩

/-- Counterexample to C2 as stated.  The claim demands an insertion for
every affected trace timestamp holding a payload of *non-negative* weight;
the code (`!input_range_cursor.weight().le0()`) requires a *positive*
weight.  Concretely: partition 0, timestamp 5 of the input trace lies in
the affected ranges, holds payload value 7 with weight 0 (non-negative),
and its window resolves, yet `eval` emits no insertion at all. -/
theorem rolling_insertion_claim_counterexample :
    (∃ vw ∈ [((7 : Int), (0 : Int))], 0 ≤ vw.2) ∧
    lookupK 5 (partT [(0, [(5, [(7, 0)])])] 0) = some [(7, 0)] ∧
    inRanges (affectedRangesOf ⟨.Before 0, .Before 0⟩ [5]) 5 = true ∧
    (RelRange.range_of ⟨.Before 0, .Before 0⟩ 5).isSome = true ∧
    ([(0, [(5, [(7, 1)])])] : PBatch).flatMap (fun e =>
      insertionsFor (fun v => v) (fun a => a) ⟨.Before 0, .Before 0⟩ e.1
        (affectedRangesOf ⟨.Before 0, .Before 0⟩ (e.2.map Prod.fst))
        (partT [(0, [(5, [(7, 0)])])] e.1)) = [] := by
  refine ⟨⟨(7, 0), by decide, by decide⟩, by decide, by decide, by decide, by decide⟩

lemma nodup_filterMap_keys {γ : Type} (g : Nat × γ → Option OutRow)
    (hkey : ∀ e row, g e = some row → row.1.2.1 = e.1) :
    ∀ l : List (Nat × γ), (l.map Prod.fst).Nodup →
      ((l.filterMap g).map (fun row => (row.1.1, row.1.2.1))).Nodup := by
  intro l
  induction l with
  | nil => intro _; simp
  | cons e rest ih =>
    intro hn
    rw [List.map_cons, List.nodup_cons] at hn
    rw [List.filterMap_cons]
    cases hg : g e with
    | none => exact ih hn.2
    | some row =>
      rw [List.map_cons, List.nodup_cons]
      refine ⟨?_, ih hn.2⟩
      intro hc
      rw [List.mem_map] at hc
      obtain ⟨row', hrow', hkeys⟩ := hc
      rw [List.mem_filterMap] at hrow'
      obtain ⟨e', he', hge'⟩ := hrow'
      have h1 : row'.1.2.1 = e'.1 := hkey e' row' hge'
      have h2 : row.1.2.1 = e.1 := hkey e row hg
      have : e.1 = e'.1 := by
        have := congrArg Prod.snd hkeys
        simp only at this
        rw [← h2, ← h1]
        exact this.symm
      exact hn.1 (this ▸ List.mem_map_of_mem Prod.fst he')

lemma insertionsFor_keys_nodup (f output_func : Int → Int) (r : RelRange)
    (pk : Nat) (rs : List TsRange) (inP : TsList)
    (hn : (inP.map Prod.fst).Nodup) :
    ((insertionsFor f output_func r pk rs inP).map
      (fun row => (row.1.1, row.1.2.1))).Nodup := by
  unfold insertionsFor
  apply nodup_filterMap_keys
  · intro e row hg
    cases hq : r.range_of e.1 with
    | none =>
      rw [hq] at hg
      exact absurd hg (by simp)
    | some q =>
      rw [hq] at hg
      dsimp only at hg
      by_cases hany : e.2.any (fun vw => decide (0 < vw.2))
      · rw [if_pos hany] at hg
        rw [← Option.some.inj hg]
      · rw [if_neg hany] at hg
        exact absurd hg (by simp)
  · have hsub : ((inP.filter (fun e => inRanges rs e.1)).map Prod.fst).Sublist
        (inP.map Prod.fst) := (List.filter_sublist inP).map Prod.fst
    exact hsub.nodup hn

lemma nodup_flatMap_insertions (f output_func : Int → Int) (r : RelRange)
    (delta inT : PBatch) (hd : PWF delta) (hin : PWF inT) :
    ((delta.flatMap (fun e =>
        insertionsFor f output_func r e.1 (affectedRangesOf r (e.2.map Prod.fst))
          (partT inT e.1))).map (fun row => (row.1.1, row.1.2.1))).Nodup := by
  have hfst : ∀ e ∈ delta, ∀ row ∈
      insertionsFor f output_func r e.1 (affectedRangesOf r (e.2.map Prod.fst))
        (partT inT e.1), row.1.1 = e.1 := by
    intro e _ row hrow
    rw [mem_insertionsFor] at hrow
    obtain ⟨_, _, _, _, _, _, rfl⟩ := hrow
    rfl
  have hd1 := hd.1
  clear hd
  induction delta with
  | nil => simp
  | cons e rest ih =>
    rw [List.map_cons, List.nodup_cons] at hd1
    rw [List.flatMap_cons, List.map_append]
    apply List.Nodup.append
    · exact insertionsFor_keys_nodup f output_func r e.1 _ _
        (TsWF_partT inT hin e.1).1
    · exact ih (fun e' he' => hfst e' (List.mem_cons_of_mem _ he')) hd1.2
    · intro x hx1 hx2
      rw [List.mem_map] at hx1 hx2
      obtain ⟨row1, hrow1, hk1⟩ := hx1
      obtain ⟨row2, hrow2, hk2⟩ := hx2
      rw [List.mem_flatMap] at hrow2
      obtain ⟨e', he', hrow2'⟩ := hrow2
      have h1 : row1.1.1 = e.1 := hfst e (List.mem_cons_self e rest) row1 hrow1
      have h2 : row2.1.1 = e'.1 :=
        hfst e' (List.mem_cons_of_mem _ he') row2 hrow2'
      apply hd1.1
      have hx12 : row1.1.1 = row2.1.1 :=
        congrArg (fun p : Nat × Nat => p.1) (hk1.trans hk2.symm)
      rw [← h1, hx12, h2]
      exact List.mem_map_of_mem Prod.fst he'

/-- C2, amended: one `eval` call emits the insertion
`((PK, (TS, agg)), +1)` — with `agg = aggregate_range(range_of(TS))` mapped
through `finalize`, `None` when the range aggregate is empty — exactly when
`PK` occurs in the delta, `TS` is a trace timestamp in the affected ranges
holding at least one *positively*-weighted payload, and `range_of(TS)`
resolves; and at most one insertion is emitted per `(PK, TS)`. -/
theorem rolling_insertion_spec (f output_func : Int → Int) (r : RelRange)
    (delta inT : PBatch) (hd : PWF delta) (hin : PWF inT)
    (pk ts : Nat) (a : Option Int) (w : Int) :
    (((pk, (ts, a)), w) ∈ delta.flatMap (fun e =>
        insertionsFor f output_func r e.1 (affectedRangesOf r (e.2.map Prod.fst))
          (partT inT e.1)) ↔
      (w = 1 ∧
       (∃ dP, lookupK pk delta = some dP ∧
         inRanges (affectedRangesOf r (dP.map Prod.fst)) ts = true) ∧
       (∃ vs, lookupK ts (partT inT pk) = some vs ∧ ∃ vw ∈ vs, 0 < vw.2) ∧
       (∃ q, r.range_of ts = some q ∧
         a = (treeAggregate f (partT inT pk) q).map
           (LinearAggregator.finalize output_func)))) ∧
    ((delta.flatMap (fun e =>
        insertionsFor f output_func r e.1 (affectedRangesOf r (e.2.map Prod.fst))
          (partT inT e.1))).map (fun row => (row.1.1, row.1.2.1))).Nodup := by
  refine ⟨?_, nodup_flatMap_insertions f output_func r delta inT hd hin⟩
  rw [List.mem_flatMap]
  constructor
  · rintro ⟨e, he, hrow⟩
    rw [mem_insertionsFor] at hrow
    obtain ⟨e2, he2, hr, q, hq, hpos, heq⟩ := hrow
    have hpk : pk = e.1 := congrArg (fun z => z.1.1) heq
    have hts : ts = e2.1 := congrArg (fun z => z.1.2.1) heq
    have ha : a = (treeAggregate f (partT inT e.1) q).map
        (LinearAggregator.finalize output_func) := congrArg (fun z => z.1.2.2) heq
    have hw : w = 1 := congrArg (fun z => z.2) heq
    subst hpk
    subst hts
    refine ⟨hw, ⟨e.2, (mem_iff_lookupK delta hd.1 e.1 e.2).mp he, hr⟩, ?_, q, hq, ha⟩
    exact ⟨e2.2, (mem_iff_lookupK _ (TsWF_partT inT hin e.1).1 _ _).mp he2, hpos⟩
  · rintro ⟨rfl, ⟨dP, hdP, hr⟩, ⟨vs, hvs, hpos⟩, q, hq, rfl⟩
    refine ⟨(pk, dP), (mem_iff_lookupK delta hd.1 pk dP).mpr hdP, ?_⟩
    rw [mem_insertionsFor]
    exact ⟨(ts, vs), lookupK_mem _ _ _ hvs, hr, q, hq, hpos, rfl⟩

/-- Witness for C2 (amended): a concrete delta inserting `(pk 0, ts 5,
v 100, w 1)` with window `Before(1000)..Before(0)` emits
`((0, (5, Some 100)), +1)`. -/
theorem rolling_insertion_spec_witness :
    (((0 : Nat), ((5 : Nat), (some 100 : Option Int))), (1 : Int)) ∈
      ([(0, [(5, [(100, 1)])])] : PBatch).flatMap (fun e =>
        insertionsFor (fun v => v) (fun a => a) ⟨.Before 1000, .Before 0⟩ e.1
          (affectedRangesOf ⟨.Before 1000, .Before 0⟩ (e.2.map Prod.fst))
          (partT [(0, [(5, [(100, 1)])])] e.1)) :=
  ((rolling_insertion_spec (fun v => v) (fun a => a) ⟨.Before 1000, .Before 0⟩
      [(0, [(5, [(100, 1)])])] [(0, [(5, [(100, 1)])])]
      (by decide) (by decide) 0 5 (some 100) 1).1).mpr
    ⟨rfl, ⟨[(5, [(100, 1)])], rfl, by decide⟩,
      ⟨[(100, 1)], by decide, (100, 1), by decide, by decide⟩,
      ⟨0, 5⟩, by decide, by decide⟩

/-! ## Helper lemmas towards the faithful-incrementalization theorem -/

lemma lookupK_isSome_of_mem [DecidableEq K] (k : K) :
    ∀ l : List (K × β), k ∈ l.map Prod.fst → (lookupK k l).isSome = true := by
  intro l
  induction l with
  | nil => intro h; simp at h
  | cons e rest ih =>
    intro h
    rw [lookupK]
    by_cases he : e.1 = k
    · rw [if_pos he]
      rfl
    · rw [if_neg he]
      apply ih
      rw [List.map_cons, List.mem_cons] at h
      rcases h with h | h
      · exact absurd h.symm he
      · exact h

lemma lookupK_filter_key [DecidableEq K] (k : K) (φ : K → Bool) :
    ∀ l : List (K × β), (l.map Prod.fst).Nodup →
      lookupK k (l.filter (fun e => φ e.1)) =
        (if φ k then lookupK k l else none) := by
  intro l
  induction l with
  | nil => intro _; simp [lookupK]
  | cons e rest ih =>
    intro hn
    rw [List.map_cons, List.nodup_cons] at hn
    rw [List.filter_cons]
    by_cases hφ : φ e.1
    · rw [if_pos hφ, lookupK, lookupK]
      by_cases he : e.1 = k
      · rw [if_pos he, if_pos he, if_pos (he ▸ hφ)]
      · rw [if_neg he, if_neg he, ih hn.2]
    · rw [if_neg hφ, ih hn.2, lookupK]
      by_cases he : e.1 = k
      · rw [if_neg (show ¬ (φ k = true) from he ▸ hφ), if_pos he,
          if_neg (show ¬ (φ k = true) from he ▸ hφ)]
      · rw [if_neg he]

lemma mem_flatOne (l : List (K × List (J × Int))) (q : (K × J) × Int) :
    q ∈ flatOne l ↔ ∃ e ∈ l, ∃ p ∈ e.2, q = ((e.1, p.1), p.2) := by
  unfold flatOne
  rw [List.mem_flatMap]
  constructor
  · rintro ⟨e, he, hq⟩
    rw [List.mem_map] at hq
    obtain ⟨p, hp, hq'⟩ := hq
    exact ⟨e, he, p, hp, hq'.symm⟩
  · rintro ⟨e, he, p, hp, rfl⟩
    exact ⟨e, he, List.mem_map_of_mem _ hp⟩

lemma flatP_pk_mem (d : PBatch) (row : InKey × Int) (h : row ∈ flatP d) :
    row.1.1 ∈ d.map Prod.fst := by
  unfold flatP at h
  have := flatOne_mem _ row h
  rw [List.map_map] at this
  exact this

lemma flatP_ts_mem (d : PBatch) (hn : (d.map Prod.fst).Nodup)
    (row : InKey × Int) (h : row ∈ flatP d) (dP : TsList)
    (hdP : lookupK row.1.1 d = some dP) :
    row.1.2.1 ∈ dP.map Prod.fst := by
  unfold flatP at h
  rw [mem_flatOne] at h
  obtain ⟨e, he, p, hp, heq⟩ := h
  rw [List.mem_map] at he
  obtain ⟨e0, he0, rfl⟩ := he
  rw [mem_flatOne] at hp
  obtain ⟨e2, he2, p2, hp2, rfl⟩ := hp
  have hpk : row.1.1 = e0.1 := congrArg (fun z => z.1.1) heq
  have hts : row.1.2.1 = e2.1 := congrArg (fun z => z.1.2.1) heq
  have hmem : (e0.1, e0.2) ∈ d := he0
  have : lookupK e0.1 d = some e0.2 := (mem_iff_lookupK d hn e0.1 e0.2).mp hmem
  rw [hpk] at hdP
  rw [this] at hdP
  have hdP' : e0.2 = dP := Option.some.inj hdP
  rw [hts, ← hdP']
  exact List.mem_map_of_mem Prod.fst he2

lemma addK_eq_nil [DecidableEq K] (k : K) (f : β → β) (init : β)
    (isEmpty : β → Bool) :
    ∀ l : List (K × β), addK k f init isEmpty l = [] → ∀ e ∈ l, e.1 = k := by
  intro l
  induction l with
  | nil => intro _ e he; simp at he
  | cons e rest ih =>
    intro h e' he'
    rw [addK] at h
    by_cases he : e.1 = k
    · rw [if_pos he] at h
      split at h
      · subst h
        rcases List.mem_cons.mp he' with rfl | he''
        · exact he
        · simp at he''
      · simp at h
    · rw [if_neg he] at h
      simp at h

lemma filter_addK_not_key [DecidableEq K] (k : K) (f : β → β) (init : β)
    (isEmpty : β → Bool) (φ : K → Bool) (hφ : φ k = false) :
    ∀ l : List (K × β),
      (addK k f init isEmpty l).filter (fun e => φ e.1) =
        l.filter (fun e => φ e.1) := by
  intro l
  induction l with
  | nil =>
    rw [addK]
    split
    · rfl
    · simp [List.filter_cons, hφ]
  | cons e rest ih =>
    rw [addK]
    by_cases he : e.1 = k
    · rw [if_pos he]
      split
      · rw [List.filter_cons, he, hφ]
        simp
      · rw [List.filter_cons, List.filter_cons, he, hφ]
        simp
    · rw [if_neg he, List.filter_cons, List.filter_cons]
      by_cases hφ' : φ e.1
      · rw [if_pos hφ', if_pos hφ', ih]
      · rw [if_neg hφ', if_neg hφ', ih]

lemma toFn_nonneg [DecidableEq X] (l : List (X × Int))
    (h : ∀ e ∈ l, 0 ≤ e.2) (x : X) : 0 ≤ toFn l x := by
  induction l with
  | nil => simp [toFn_nil]
  | cons e rest ih =>
    rw [toFn_cons]
    have h1 := h e (List.mem_cons_self e rest)
    have h2 := ih (fun e' he' => h e' (List.mem_cons_of_mem _ he'))
    by_cases he : e.1 = x
    · rw [if_pos he]
      omega
    · rw [if_neg he]
      omega

lemma toFn_pos_iff [DecidableEq X] (l : List (X × Int))
    (h : ∀ e ∈ l, e.2 = 1) (x : X) :
    0 < toFn l x ↔ ∃ e ∈ l, e.1 = x := by
  induction l with
  | nil => simp [toFn_nil]
  | cons e rest ih =>
    rw [toFn_cons]
    have h1 := h e (List.mem_cons_self e rest)
    have hrest := ih (fun e' he' => h e' (List.mem_cons_of_mem _ he'))
    have hnn : 0 ≤ toFn rest x :=
      toFn_nonneg rest (fun e' he' => by rw [h e' (List.mem_cons_of_mem _ he')]; norm_num) x
    by_cases he : e.1 = x
    · rw [if_pos he, h1]
      constructor
      · intro _
        exact ⟨e, List.mem_cons_self e rest, he⟩
      · intro _
        omega
    · rw [if_neg he]
      constructor
      · intro hpos
        obtain ⟨e', he', hx⟩ := hrest.mp (by omega)
        exact ⟨e', List.mem_cons_of_mem _ he', hx⟩
      · rintro ⟨e', he', hx⟩
        rcases List.mem_cons.mp he' with rfl | he''
        · exact absurd hx he
        · have := hrest.mpr ⟨e', he'', hx⟩
          omega

lemma toFn_flatMap_keyed_proj {γ : Type} (π : OutKey → Nat)
    (g : Nat × γ → List OutRow) :
    ∀ l : List (Nat × γ), (l.map Prod.fst).Nodup →
      (∀ e ∈ l, ∀ row ∈ g e, π row.1 = e.1) → ∀ x : OutKey,
      toFn (l.flatMap g) x =
        (match lookupK (π x) l with
         | none => 0
         | some c => toFn (g (π x, c)) x) := by
  intro l
  induction l with
  | nil => intro _ _ x; rfl
  | cons e rest ih =>
    intro hn hproj x
    rw [List.map_cons, List.nodup_cons] at hn
    rw [List.flatMap_cons, toFn_append, lookupK]
    by_cases he : e.1 = π x
    · rw [if_pos he]
      have hz : toFn (rest.flatMap g) x = 0 := by
        apply toFn_eq_zero_of_ne
        intro row hrow hx
        rw [List.mem_flatMap] at hrow
        obtain ⟨e', he', hrow'⟩ := hrow
        have hpe := hproj e' (List.mem_cons_of_mem _ he') row hrow'
        have h2 : e.1 = e'.1 := by rw [he, ← hx, hpe]
        exact hn.1 (by rw [h2]; exact List.mem_map_of_mem Prod.fst he')
      have heta : ((π x, e.2) : Nat × γ) = e := by rw [← he]
      rw [hz]
      dsimp only
      rw [heta]
      ring
    · rw [if_neg he]
      have hz : toFn (g e) x = 0 := by
        apply toFn_eq_zero_of_ne
        intro row hrow hx
        exact he (by
          rw [← hproj e (List.mem_cons_self e rest) row hrow, hx])
      rw [hz, zero_add,
        ih hn.2 (fun e' he' => hproj e' (List.mem_cons_of_mem _ he')) x]

lemma toFn_filterMap_keyed_proj {γ : Type} (π : OutKey → Nat)
    (h : Nat × γ → Option OutRow)
    (hproj : ∀ e row, h e = some row → π row.1 = e.1) :
    ∀ l : List (Nat × γ), (l.map Prod.fst).Nodup → ∀ x : OutKey,
      toFn (l.filterMap h) x =
        (match lookupK (π x) l with
         | none => 0
         | some c =>
           (match h (π x, c) with
            | none => 0
            | some row => if row.1 = x then row.2 else 0)) := by
  intro l
  induction l with
  | nil => intro _ x; rfl
  | cons e rest ih =>
    intro hn x
    rw [List.map_cons, List.nodup_cons] at hn
    rw [List.filterMap_cons, lookupK]
    have hzrest : e.1 = π x → toFn (rest.filterMap h) x = 0 := by
      intro he
      apply toFn_eq_zero_of_ne
      intro row hrow hx
      rw [List.mem_filterMap] at hrow
      obtain ⟨e', he', hge'⟩ := hrow
      have hpe := hproj e' row hge'
      have h2 : e.1 = e'.1 := by rw [he, ← hx, hpe]
      exact hn.1 (by rw [h2]; exact List.mem_map_of_mem Prod.fst he')
    by_cases he : e.1 = π x
    · rw [if_pos he]
      have heta : ((π x, e.2) : Nat × γ) = e := by rw [← he]
      dsimp only
      rw [heta]
      cases hg : h e with
      | none => rw [hzrest he]
      | some row =>
        rw [toFn_cons, hzrest he]
        dsimp only
        ring
    · rw [if_neg he]
      cases hg : h e with
      | none => exact ih hn.2 x
      | some row =>
        rw [toFn_cons, ih hn.2 x]
        have : ¬ (row.1 = x) := by
          intro hc
          exact he (by rw [← hproj e row hg, hc])
        rw [if_neg this, zero_add]

lemma toFn_negmap (pk ts : Nat) (a : Option Int) :
    ∀ vals : OValList, (vals.map Prod.fst).Nodup →
      toFn (vals.map (fun aw => ((pk, (ts, aw.1)), -aw.2))) (pk, (ts, a)) =
        -((lookupK a vals).getD 0) := by
  intro vals
  induction vals with
  | nil => intro _; simp [toFn_nil, lookupK]
  | cons aw rest ih =>
    intro hn
    rw [List.map_cons, List.nodup_cons] at hn
    rw [List.map_cons, toFn_cons, lookupK]
    by_cases he : aw.1 = a
    · rw [if_pos (show ((pk, (ts, aw.1)), -aw.2).1 = (pk, (ts, a)) by rw [he]),
        if_pos he]
      have hz : toFn (rest.map (fun aw => ((pk, (ts, aw.1)), -aw.2)))
          (pk, (ts, a)) = 0 := by
        apply toFn_eq_zero_of_ne
        intro e' he' hx
        rw [List.mem_map] at he'
        obtain ⟨aw', haw', rfl⟩ := he'
        have h2 : aw'.1 = a := congrArg (fun z : OutKey => z.2.2) hx
        exact hn.1 (by rw [he, ← h2]; exact List.mem_map_of_mem Prod.fst haw')
      rw [hz]
      simp
    · rw [if_neg (show ¬ (((pk, (ts, aw.1)), -aw.2).1 = (pk, (ts, a))) from
        fun hc => he (congrArg (fun z => z.2.2) hc)), if_neg he, ih hn.2]
      simp

lemma toFn_retractionsFor_char (pk : Nat) (rs : List TsRange) (outP : OTsList)
    (hwf : OTsWF outP) (ts : Nat) (a : Option Int) :
    toFn (retractionsFor pk rs outP) (pk, (ts, a)) =
      (if inRanges rs ts = true
       then -((lookupK a ((lookupK ts outP).getD [])).getD 0) else 0) := by
  unfold retractionsFor
  have hfn : ((outP.filter (fun e => inRanges rs e.1)).map Prod.fst).Nodup :=
    ((List.filter_sublist outP).map Prod.fst).nodup hwf.1
  rw [toFn_flatMap_keyed_proj (fun k => k.2.1) _ _ hfn ?hproj (pk, (ts, a))]
  case hproj =>
    intro e _ row hrow
    rw [List.mem_map] at hrow
    obtain ⟨aw, _, rfl⟩ := hrow
    rfl
  rw [lookupK_filter_key ts (fun k => inRanges rs k) outP hwf.1]
  by_cases hr : inRanges rs ts
  · rw [if_pos hr, if_pos hr]
    cases hl : lookupK ts outP with
    | none => simp [lookupK]
    | some vals =>
      dsimp only
      have hOV : OValWF vals := (hwf.2 (ts, vals) (lookupK_mem _ _ _ hl)).1
      have hfeq : vals.filter (fun aw => decide (aw.2 ≠ 0)) = vals :=
        List.filter_eq_self.mpr (fun aw haw => by simpa using hOV.2 aw haw)
      rw [hfeq, toFn_negmap pk ts a vals hOV.1]
      simp
  · rw [if_neg hr, if_neg hr]

lemma toFn_insertionsFor_char (f output_func : Int → Int) (r : RelRange)
    (pk : Nat) (rs : List TsRange) (inP : TsList) (hwf : TsWF inP)
    (ts : Nat) (a : Option Int) :
    toFn (insertionsFor f output_func r pk rs inP) (pk, (ts, a)) =
      (if inRanges rs ts = true then
        (match lookupK ts inP, r.range_of ts with
         | some vals, some q =>
           if vals.any (fun vw => decide (0 < vw.2)) = true ∧
              a = (treeAggregate f inP q).map
                (LinearAggregator.finalize output_func)
           then 1 else 0
         | _, _ => 0)
       else 0) := by
  unfold insertionsFor
  have hfn : ((inP.filter (fun e => inRanges rs e.1)).map Prod.fst).Nodup :=
    ((List.filter_sublist inP).map Prod.fst).nodup hwf.1
  rw [toFn_filterMap_keyed_proj (fun k => k.2.1) _ ?hproj _ hfn (pk, (ts, a))]
  case hproj =>
    intro e row hg
    cases hq : r.range_of e.1 with
    | none =>
      rw [hq] at hg
      exact absurd hg (by simp)
    | some q =>
      rw [hq] at hg
      dsimp only at hg
      by_cases hany : e.2.any (fun vw => decide (0 < vw.2))
      · rw [if_pos hany] at hg
        rw [← Option.some.inj hg]
      · rw [if_neg hany] at hg
        exact absurd hg (by simp)
  rw [lookupK_filter_key ts (fun k => inRanges rs k) inP hwf.1]
  by_cases hr : inRanges rs ts
  · rw [if_pos hr, if_pos hr]
    cases hl : lookupK ts inP with
    | none => rfl
    | some vals =>
      dsimp only
      cases hq : r.range_of ts with
      | none => rfl
      | some q =>
        dsimp only
        by_cases hany : vals.any (fun vw => decide (0 < vw.2))
        · rw [if_pos hany]
          by_cases ha : a = (treeAggregate f inP q).map
              (LinearAggregator.finalize output_func)
          · rw [if_pos ⟨hany, ha⟩]
            dsimp only
            rw [if_pos (by rw [ha])]
          · rw [if_neg (fun hc => ha hc.2)]
            dsimp only
            rw [if_neg (fun hc => ha (congrArg (fun z => z.2.2) hc).symm)]
        · rw [if_neg hany, if_neg (fun hc => hany hc.1)]
  · rw [if_neg hr, if_neg hr]

lemma foldl_weighted_shift (f : Int → Int) :
    ∀ (l : List (Int × Int)) (a : Int),
      l.foldl (fun acc vw => acc + f vw.1 * vw.2) a =
        a + l.foldl (fun acc vw => acc + f vw.1 * vw.2) 0 := by
  intro l
  induction l with
  | nil => intro a; simp
  | cons vw rest ih =>
    intro a
    rw [List.foldl_cons, List.foldl_cons, ih, ih (0 + f vw.1 * vw.2)]
    ring

lemma aggregate_eq_fold (f : Int → Int) (l : List (Int × Int)) :
    LinearAggregator.aggregate f l =
      (if l = [] then none
       else some (l.foldl (fun acc vw => acc + f vw.1 * vw.2) 0)) := by
  cases l with
  | nil => rfl
  | cons vw rest =>
    rw [if_neg (by simp)]
    obtain ⟨v, w⟩ := vw
    rw [LinearAggregator.aggregate, aggLoop, aggLoop_some, List.foldl_cons]
    rw [zero_add]

lemma optAdd_none_right (a : Option Int) : optAdd a none = a := by
  cases a <;> rfl

lemma optAdd_assoc (a b c : Option Int) :
    optAdd (optAdd a b) c = optAdd a (optAdd b c) := by
  cases a <;> cases b <;> cases c <;> simp [optAdd] <;> ring

lemma aggregate_append (f : Int → Int) (xs ys : List (Int × Int)) :
    LinearAggregator.aggregate f (xs ++ ys) =
      optAdd (LinearAggregator.aggregate f xs) (LinearAggregator.aggregate f ys) := by
  rw [aggregate_eq_fold, aggregate_eq_fold, aggregate_eq_fold]
  by_cases hx : xs = []
  · subst hx
    simp [optAdd]
  · by_cases hy : ys = []
    · subst hy
      rw [List.append_nil, if_neg hx, if_pos rfl, optAdd_none_right]
    · rw [if_neg (by simp [hx]), if_neg hx, if_neg hy]
      show some _ = some _
      rw [List.foldl_append, foldl_weighted_shift f ys]

lemma foldl_optAdd_flat (f : Int → Int) :
    ∀ (gs : List (Nat × ValList)) (acc : Option Int),
      gs.foldl (fun acc e => optAdd acc (LinearAggregator.aggregate f e.2)) acc =
        optAdd acc (LinearAggregator.aggregate f (gs.flatMap (fun e => e.2))) := by
  intro gs
  induction gs with
  | nil =>
    intro acc
    rw [List.foldl_nil, List.flatMap_nil]
    exact (optAdd_none_right acc).symm
  | cons g rest ih =>
    intro acc
    rw [List.foldl_cons, ih, List.flatMap_cons, aggregate_append, optAdd_assoc]

lemma treeAggregate_eq_slow (f : Int → Int) (b : PBatch) (pk : Nat) (q : TsRange) :
    treeAggregate f (partT b pk) q = aggregate_range_slow f b pk q := by
  unfold treeAggregate aggregate_range_slow
  rw [foldl_optAdd_flat]
  rfl

lemma refRows_weights (f output_func : Int → Int) (r : RelRange) (b : PBatch) :
    ∀ row ∈ refRows f output_func r b, row.2 = 1 := by
  intro row hrow
  unfold refRows at hrow
  rw [List.mem_flatMap] at hrow
  obtain ⟨e, _, hrow⟩ := hrow
  rw [List.mem_flatMap] at hrow
  obtain ⟨e2, _, hrow⟩ := hrow
  rw [List.mem_filterMap] at hrow
  obtain ⟨vw, _, hm⟩ := hrow
  cases hq : r.range_of e2.1 with
  | none =>
    rw [hq] at hm
    exact absurd hm (by simp)
  | some q =>
    rw [hq] at hm
    dsimp only at hm
    rw [← Option.some.inj hm]

lemma mem_refRows_key_iff (f output_func : Int → Int) (r : RelRange)
    (b : PBatch) (hwf : PWF b) (pk ts : Nat) (a : Option Int) :
    (∃ row ∈ refRows f output_func r b, row.1 = ((pk, (ts, a)) : OutKey)) ↔
      ((lookupK ts (partT b pk)).isSome = true ∧
       ∃ q, r.range_of ts = some q ∧
         a = (aggregate_range_slow f b pk q).map
           (LinearAggregator.finalize output_func)) := by
  constructor
  · rintro ⟨row, hrow, hkey⟩
    unfold refRows at hrow
    rw [List.mem_flatMap] at hrow
    obtain ⟨e, he, hrow⟩ := hrow
    rw [List.mem_flatMap] at hrow
    obtain ⟨e2, he2, hrow⟩ := hrow
    rw [List.mem_filterMap] at hrow
    obtain ⟨vw, hvw, hm⟩ := hrow
    cases hq : r.range_of e2.1 with
    | none =>
      rw [hq] at hm
      exact absurd hm (by simp)
    | some q =>
      rw [hq] at hm
      dsimp only at hm
      have hrow' := Option.some.inj hm
      rw [← hrow'] at hkey
      have hpk : e.1 = pk := congrArg (fun z : OutKey => z.1) hkey
      have hts : e2.1 = ts := congrArg (fun z : OutKey => z.2.1) hkey
      have ha : (aggregate_range_slow f b e.1 q).map
          (LinearAggregator.finalize output_func) = a :=
        congrArg (fun z : OutKey => z.2.2) hkey
      have hdP : lookupK pk b = some e.2 := by
        rw [← hpk]
        exact (mem_iff_lookupK b hwf.1 e.1 e.2).mp he
      have hpart : partT b pk = e.2 := by
        unfold partT
        rw [hdP]
        rfl
      refine ⟨?_, q, by rw [← hts]; exact hq, ?_⟩
      · rw [hpart]
        have hTs : TsWF e.2 := (hwf.2 e he).1
        rw [← hts]
        rw [(mem_iff_lookupK e.2 hTs.1 e2.1 e2.2).mp he2]
        rfl
      · rw [← ha, hpk]
  · rintro ⟨hsome, q, hq, rfl⟩
    cases hl : lookupK ts (partT b pk) with
    | none =>
      rw [hl] at hsome
      exact absurd hsome (by simp)
    | some vals =>
      have hne : partT b pk ≠ [] := by
        intro hc
        rw [hc] at hl
        exact absurd hl (by simp [lookupK])
      have hdP : lookupK pk b = some (partT b pk) := by
        unfold partT
        cases hb : lookupK pk b with
        | none =>
          unfold partT at hne
          rw [hb] at hne
          exact absurd rfl hne
        | some t => rfl
      have hTs : TsWF (partT b pk) := TsWF_partT b hwf pk
      have hvalsne : vals ≠ [] :=
        (hTs.2 (ts, vals) (lookupK_mem _ _ _ hl)).2
      obtain ⟨vw, hvw⟩ := List.exists_mem_of_ne_nil vals hvalsne
      refine ⟨((pk, (ts, (aggregate_range_slow f b pk q).map
        (LinearAggregator.finalize output_func))), 1), ?_, rfl⟩
      unfold refRows
      rw [List.mem_flatMap]
      refine ⟨(pk, partT b pk), (mem_iff_lookupK b hwf.1 _ _).mpr hdP, ?_⟩
      rw [List.mem_flatMap]
      refine ⟨(ts, vals), lookupK_mem _ _ _ hl, ?_⟩
      rw [List.mem_filterMap]
      refine ⟨vw, hvw, ?_⟩
      rw [hq]

/-- The reference output at one key, characterized through lookups:
present exactly for trace timestamps with a resolvable window carrying the
reference aggregate. -/
lemma refFn_char (f output_func : Int → Int) (r : RelRange) (b : PBatch)
    (hwf : PWF b) (pk ts : Nat) (a : Option Int) :
    refFn f output_func r b (pk, (ts, a)) =
      (match lookupK ts (partT b pk), r.range_of ts with
       | some _, some q =>
         if a = (aggregate_range_slow f b pk q).map
             (LinearAggregator.finalize output_func)
         then 1 else 0
       | _, _ => 0) := by
  unfold refFn
  have hposiff := toFn_pos_iff _ (refRows_weights f output_func r b) (pk, (ts, a))
  rw [mem_refRows_key_iff f output_func r b hwf pk ts a] at hposiff
  cases hl : lookupK ts (partT b pk) with
  | none =>
    rw [if_neg (fun hc => by
      have h2 := hposiff.mp hc
      rw [hl] at h2
      exact absurd h2.1 (by simp))]
  | some vals =>
    cases hq : r.range_of ts with
    | none =>
      rw [if_neg (fun hc => by
        obtain ⟨_, q', hq', _⟩ := hposiff.mp hc
        rw [hq] at hq'
        exact absurd hq' (by simp))]
    | some q =>
      dsimp only
      by_cases ha : a = (aggregate_range_slow f b pk q).map
          (LinearAggregator.finalize output_func)
      · rw [if_pos (hposiff.mpr ⟨by rw [hl]; rfl, q, hq, ha⟩), if_pos ha]
      · rw [if_neg (fun hc => by
          obtain ⟨_, q', hq', ha'⟩ := hposiff.mp hc
          rw [hq] at hq'
          rw [← Option.some.inj hq'] at ha'
          exact ha ha'), if_neg ha]

lemma lookupK_integrateP_pk_frame (pk : Nat) :
    ∀ (rows : List (InKey × Int)) (b : PBatch),
      (∀ row ∈ rows, row.1.1 ≠ pk) →
      lookupK pk (integrateP b rows) = lookupK pk b := by
  intro rows
  induction rows with
  | nil => intro b _; rfl
  | cons row rest ih =>
    intro b h
    rw [show integrateP b (row :: rest) =
      integrateP (addPW row.1.1 row.1.2.1 row.1.2.2 row.2 b) rest from rfl]
    rw [ih _ (fun e he => h e (List.mem_cons_of_mem _ he))]
    unfold addPW
    exact lookupK_addK_ne _ _
      (fun hc => h row (List.mem_cons_self row rest) hc.symm) _ _ _ b

lemma lookupK_ts_integrateP_frame (pk ts : Nat) :
    ∀ (rows : List (InKey × Int)) (b : PBatch), PWF b →
      (∀ row ∈ rows, row.1.1 = pk → row.1.2.1 ≠ ts) →
      lookupK ts (partT (integrateP b rows) pk) = lookupK ts (partT b pk) := by
  intro rows
  induction rows with
  | nil => intro b _ _; rfl
  | cons row rest ih =>
    intro b hwf h
    rw [show integrateP b (row :: rest) =
      integrateP (addPW row.1.1 row.1.2.1 row.1.2.2 row.2 b) rest from rfl]
    rw [ih _ (PWF_addPW _ _ _ _ b hwf) (fun e he => h e (List.mem_cons_of_mem _ he))]
    by_cases hpk : row.1.1 = pk
    · have hts : row.1.2.1 ≠ ts := h row (List.mem_cons_self row rest) hpk
      unfold partT addPW
      subst hpk
      rw [lookupK_addK_self _ _ _ _ b hwf.1]
      split
      · rename_i hemp
        rw [Option.getD_none]
        have hnil : addTsW row.1.2.1 row.1.2.2 row.2
            ((lookupK row.1.1 b).getD []) = [] := List.isEmpty_iff.mp hemp
        have hne := lookupK_addK_ne row.1.2.1 ts (Ne.symm hts)
          (addW row.1.2.2 row.2) [] (fun vs => vs.isEmpty)
          ((lookupK row.1.1 b).getD [])
        unfold addTsW at hnil
        rw [hnil] at hne
        exact hne
      · rw [Option.getD_some]
        unfold addTsW
        exact lookupK_addK_ne _ _ (Ne.symm hts) _ _ _ _
    · unfold partT addPW
      rw [lookupK_addK_ne row.1.1 pk (fun hc => hpk hc.symm) _ _ _ b]

lemma filter_range_integrateP_frame (pk : Nat) (q : TsRange) :
    ∀ (rows : List (InKey × Int)) (b : PBatch), PWF b →
      (∀ row ∈ rows, row.1.1 = pk → q.memB row.1.2.1 = false) →
      (partT (integrateP b rows) pk).filter (fun e => q.memB e.1) =
        (partT b pk).filter (fun e => q.memB e.1) := by
  intro rows
  induction rows with
  | nil => intro b _ _; rfl
  | cons row rest ih =>
    intro b hwf h
    rw [show integrateP b (row :: rest) =
      integrateP (addPW row.1.1 row.1.2.1 row.1.2.2 row.2 b) rest from rfl]
    rw [ih _ (PWF_addPW _ _ _ _ b hwf) (fun e he => h e (List.mem_cons_of_mem _ he))]
    by_cases hpk : row.1.1 = pk
    · have hts : q.memB row.1.2.1 = false := h row (List.mem_cons_self row rest) hpk
      unfold partT addPW
      subst hpk
      rw [lookupK_addK_self _ _ _ _ b hwf.1]
      split
      · rename_i hemp
        rw [Option.getD_none]
        have hnil : addTsW row.1.2.1 row.1.2.2 row.2
            ((lookupK row.1.1 b).getD []) = [] := List.isEmpty_iff.mp hemp
        have hkeys := addK_eq_nil row.1.2.1 (addW row.1.2.2 row.2) []
          (fun vs => vs.isEmpty) ((lookupK row.1.1 b).getD [])
          (by unfold addTsW at hnil; exact hnil)
        rw [List.filter_nil]
        symm
        rw [List.filter_eq_nil]
        intro e he
        rw [hkeys e he]
        simp [hts]
      · rw [Option.getD_some]
        unfold addTsW
        exact filter_addK_not_key row.1.2.1 _ _ _ (fun k => q.memB k) hts _
    · unfold partT addPW
      rw [lookupK_addK_ne row.1.1 pk (fun hc => hpk hc.symm) _ _ _ b]

/-- The weight function of an output batch at one key. -/
def outWeight (o : OBatch) (x : OutKey) : Int := wOfO o x.1 x.2.1 x.2.2

lemma inRanges_of_key_mem (r : RelRange) (keys : List Nat) (k : Nat)
    (h : k ∈ keys) : inRanges (affectedRangesOf r keys) k = true := by
  unfold inRanges affectedRangesOf
  rw [List.any_eq_true]
  refine ⟨⟨k, k⟩, ?_, by simp [TsRange.memB]⟩
  rw [List.mem_append]
  right
  exact List.mem_map_of_mem _ h

lemma inRanges_of_affected (r : RelRange) (keys : List Nat) (k ts : Nat)
    (hk : k ∈ keys) (aq : TsRange) (haq : r.affected_range_of k = some aq)
    (hmem : aq.memB ts = true) :
    inRanges (affectedRangesOf r keys) ts = true := by
  unfold inRanges affectedRangesOf
  rw [List.any_eq_true]
  refine ⟨aq, ?_, hmem⟩
  rw [List.mem_append]
  left
  rw [List.mem_filterMap]
  exact ⟨k, hk, haq⟩

lemma lookupK_self_partT (b : PBatch) (pk : Nat) (hpne : partT b pk ≠ []) :
    lookupK pk b = some (partT b pk) := by
  cases hb : lookupK pk b with
  | none =>
    exfalso
    apply hpne
    unfold partT
    rw [hb]
    rfl
  | some t =>
    unfold partT
    rw [hb]
    rfl

lemma any_pos_of_AllPos (b : PBatch) (hpos : AllPos b) (hwf : PWF b)
    (pk ts : Nat) (vals : ValList)
    (hl : lookupK ts (partT b pk) = some vals) :
    vals.any (fun vw => decide (0 < vw.2)) = true := by
  have hvals_mem := lookupK_mem _ _ _ hl
  have hvne : vals ≠ [] := ((TsWF_partT b hwf pk).2 (ts, vals) hvals_mem).2
  obtain ⟨vw, hvw⟩ := List.exists_mem_of_ne_nil vals hvne
  rw [List.any_eq_true]
  refine ⟨vw, hvw, ?_⟩
  have hpne : partT b pk ≠ [] := by
    intro hc
    rw [hc] at hl
    exact absurd hl (by simp [lookupK])
  have hbp := lookupK_self_partT b pk hpne
  have := hpos (pk, partT b pk) (lookupK_mem _ _ _ hbp) (ts, vals) hvals_mem vw hvw
  simpa using this

/-- One tick preserves the faithful-incrementalization invariant: if the
previous output trace equals the reference of the previous integral and the
new integral is non-negative, then after retractions and insertions the
output trace equals the reference of the new integral. -/
lemma step_matches_ref (f output_func : Int → Int) (r : RelRange)
    (d Iprev : PBatch) (Oprev : OBatch)
    (hdwf : PWF d) (hIprev : PWF Iprev) (hOprev : OWF Oprev)
    (hIH : ∀ x : OutKey, outWeight Oprev x = refFn f output_func r Iprev x)
    (hpos : AllPos (integrateDelta Iprev d)) :
    ∀ x : OutKey,
      outWeight (integrateO Oprev
        (evalRolling f output_func r d (integrateDelta Iprev d) Oprev)) x =
      refFn f output_func r (integrateDelta Iprev d) x := by
  intro x
  obtain ⟨pk, ts, a⟩ := x
  have hIcurWF : PWF (integrateDelta Iprev d) := PWF_integrateP _ Iprev hIprev
  show wOfO (integrateO Oprev _) pk ts a = _
  rw [wOfO_integrateO _ Oprev hOprev pk ts a]
  unfold evalRolling
  rw [toFn_append]
  have hprojR : ∀ e ∈ d, ∀ row ∈ retractionsFor e.1
      (affectedRangesOf r (e.2.map Prod.fst)) (partO Oprev e.1),
      (fun k : OutKey => k.1) row.1 = e.1 := by
    intro e _ row hrow
    rw [mem_retractionsFor] at hrow
    obtain ⟨_, _, _, _, _, _, rfl⟩ := hrow
    rfl
  have hprojI : ∀ e ∈ d, ∀ row ∈ insertionsFor f output_func r e.1
      (affectedRangesOf r (e.2.map Prod.fst)) (partT (integrateDelta Iprev d) e.1),
      (fun k : OutKey => k.1) row.1 = e.1 := by
    intro e _ row hrow
    rw [mem_insertionsFor] at hrow
    obtain ⟨_, _, _, _, _, _, rfl⟩ := hrow
    rfl
  rw [toFn_flatMap_keyed_proj (fun k => k.1) _ d hdwf.1 hprojR (pk, (ts, a)),
      toFn_flatMap_keyed_proj (fun k => k.1) _ d hdwf.1 hprojI (pk, (ts, a))]
  have hIHx : wOfO Oprev pk ts a = refFn f output_func r Iprev (pk, (ts, a)) :=
    hIH (pk, (ts, a))
  cases hdl : lookupK (pk, (ts, a)).1 d with
  | none =>
    dsimp only
    have hpk_notin : ∀ row ∈ flatP d, row.1.1 ≠ pk := by
      intro row hrow hc
      have hmem := flatP_pk_mem d row hrow
      rw [hc] at hmem
      have hcontra := lookupK_isSome_of_mem pk d hmem
      rw [show lookupK pk d = none from hdl] at hcontra
      simp at hcontra
    have hpart : partT (integrateDelta Iprev d) pk = partT Iprev pk := by
      unfold partT
      rw [show integrateDelta Iprev d = integrateP Iprev (flatP d) from rfl,
        lookupK_integrateP_pk_frame pk (flatP d) Iprev hpk_notin]
    have h1 : refFn f output_func r (integrateDelta Iprev d) (pk, (ts, a)) =
        refFn f output_func r Iprev (pk, (ts, a)) := by
      rw [refFn_char f output_func r _ hIcurWF pk ts a,
          refFn_char f output_func r Iprev hIprev pk ts a, hpart]
      cases hl : lookupK ts (partT Iprev pk) with
      | none => rfl
      | some vals =>
        cases hq : r.range_of ts with
        | none => rfl
        | some q =>
          dsimp only
          have hagg : aggregate_range_slow f (integrateDelta Iprev d) pk q =
              aggregate_range_slow f Iprev pk q := by
            unfold aggregate_range_slow
            rw [hpart]
          rw [hagg]
    rw [h1, ← hIHx]
    omega
  | some dP =>
    dsimp only
    rw [toFn_retractionsFor_char pk _ (partO Oprev pk)
        (OTsWF_partO Oprev hOprev pk) ts a,
      toFn_insertionsFor_char f output_func r pk _
        (partT (integrateDelta Iprev d) pk)
        (TsWF_partT _ hIcurWF pk) ts a]
    by_cases hr : inRanges (affectedRangesOf r (dP.map Prod.fst)) ts
    · rw [if_pos hr, if_pos hr]
      rw [refFn_char f output_func r _ hIcurWF pk ts a]
      have hretr : (lookupK a ((lookupK ts (partO Oprev pk)).getD [])).getD 0 =
          wOfO Oprev pk ts a := rfl
      rw [hretr]
      cases hl : lookupK ts (partT (integrateDelta Iprev d) pk) with
      | none =>
        dsimp only
        omega
      | some vals =>
        cases hq : r.range_of ts with
        | none =>
          dsimp only
          omega
        | some q =>
          dsimp only
          have hany := any_pos_of_AllPos _ hpos hIcurWF pk ts vals hl
          rw [treeAggregate_eq_slow f (integrateDelta Iprev d) pk q]
          by_cases ha : a = (aggregate_range_slow f (integrateDelta Iprev d) pk q).map
              (LinearAggregator.finalize output_func)
          · rw [if_pos ⟨hany, ha⟩, if_pos ha]
            omega
          · rw [if_neg (fun hc => ha hc.2), if_neg ha]
            omega
    · rw [if_neg hr, if_neg hr]
      have hdl' : lookupK pk d = some dP := hdl
      have hts_frame : ∀ row ∈ flatP d, row.1.1 = pk → row.1.2.1 ≠ ts := by
        intro row hrow hpk hc
        have hmem := flatP_ts_mem d hdwf.1 row hrow dP (by rw [hpk]; exact hdl')
        rw [hc] at hmem
        exact absurd (inRanges_of_key_mem r (dP.map Prod.fst) ts hmem) hr
      have hlts : lookupK ts (partT (integrateDelta Iprev d) pk) =
          lookupK ts (partT Iprev pk) :=
        lookupK_ts_integrateP_frame pk ts (flatP d) Iprev hIprev hts_frame
      rw [refFn_char f output_func r _ hIcurWF pk ts a]
      rw [refFn_char f output_func r Iprev hIprev pk ts a] at hIHx
      rw [hlts]
      cases hl : lookupK ts (partT Iprev pk) with
      | none =>
        rw [hl] at hIHx
        dsimp only at hIHx ⊢
        omega
      | some vals =>
        rw [hl] at hIHx
        cases hq : r.range_of ts with
        | none =>
          rw [hq] at hIHx
          dsimp only at hIHx ⊢
          omega
        | some q =>
          rw [hq] at hIHx
          dsimp only at hIHx ⊢
          have hq_frame : ∀ row ∈ flatP d, row.1.1 = pk →
              q.memB row.1.2.1 = false := by
            intro row hrow hpk
            by_contra hc
            rw [Bool.not_eq_false] at hc
            have hmem := flatP_ts_mem d hdwf.1 row hrow dP (by rw [hpk]; exact hdl')
            have hanchor := (affected_range_char r ts row.1.2.1).mpr ⟨q, hq, hc⟩
            obtain ⟨aq, haq, hmem2⟩ := hanchor
            exact absurd (inRanges_of_affected r (dP.map Prod.fst) row.1.2.1 ts
              hmem aq haq hmem2) hr
          have hagg : aggregate_range_slow f (integrateDelta Iprev d) pk q =
              aggregate_range_slow f Iprev pk q := by
            unfold aggregate_range_slow
            congr 1
            exact congrArg (fun z => z.flatMap (fun e => e.2))
              (filter_range_integrateP_frame pk q (flatP d) Iprev hIprev hq_frame)
          rw [hagg, ← hIHx]
          omega

lemma PWF_nil : PWF [] := ⟨by simp, by simp⟩

lemma OWF_nil : OWF [] := ⟨by simp, by simp⟩

lemma run_wf (f output_func : Int → Int) (r : RelRange) :
    ∀ (deltas : List PBatch) (s : PBatch × OBatch), PWF s.1 → OWF s.2 →
      (∀ d ∈ deltas, PWF d) →
      PWF (deltas.foldl (stepRolling f output_func r) s).1 ∧
      OWF (deltas.foldl (stepRolling f output_func r) s).2 := by
  intro deltas
  induction deltas with
  | nil =>
    intro s h1 h2 _
    exact ⟨h1, h2⟩
  | cons d rest ih =>
    intro s h1 h2 hd
    rw [List.foldl_cons]
    apply ih
    · exact PWF_integrateP _ _ h1
    · exact OWF_integrateO _ _ h2
    · exact fun d' hd' => hd d' (List.mem_cons_of_mem _ hd')

lemma run_invariant (f output_func : Int → Int) (r : RelRange) :
    ∀ (deltas : List PBatch), (∀ d ∈ deltas, PWF d) →
      (∀ t, t ≤ deltas.length →
        AllPos (runRolling f output_func r (deltas.take t)).1) →
      ∀ x : OutKey, outWeight (runRolling f output_func r deltas).2 x =
        refFn f output_func r (runRolling f output_func r deltas).1 x := by
  intro deltas
  induction deltas using List.reverseRecOn with
  | nil =>
    intro _ _ x
    rfl
  | append_singleton l d ih =>
    intro hwf hpos x
    have hstep : runRolling f output_func r (l ++ [d]) =
        stepRolling f output_func r (runRolling f output_func r l) d := by
      unfold runRolling
      rw [List.foldl_append]
      rfl
    rw [hstep]
    have hwl : ∀ d' ∈ l, PWF d' := fun d' hd' => hwf d' (List.mem_append_left _ hd')
    have hdw : PWF d := hwf d (by simp)
    have hrun := run_wf f output_func r l ([], []) PWF_nil OWF_nil hwl
    have hIH := ih hwl (fun t' ht' => by
      have heq : (l ++ [d]).take t' = l.take t' :=
        List.take_append_of_le_length ht'
      have := hpos t' (le_trans ht' (by simp))
      rw [heq] at this
      exact this)
    have hposcur : AllPos (integrateDelta (runRolling f output_func r l).1 d) := by
      have := hpos (l.length + 1) (by simp)
      rw [List.take_of_length_le (by simp)] at this
      rw [hstep] at this
      exact this
    exact step_matches_ref f output_func r d _ _ hdw hrun.1 hrun.2 hIH hposcur x

/-- C1 (amended): faithful incrementalization.  For every sequence of
canonical input delta batches whose running integral never holds a negative
weight, after every tick the tick-by-tick integral of the operator's output
deltas equals the non-incremental reference
(`partitioned_rolling_aggregate_slow` followed by `stream_distinct`)
applied to the integrated input. -/
theorem rolling_aggregate_faithful (f output_func : Int → Int) (r : RelRange)
    (deltas : List PBatch) (hwf : ∀ d ∈ deltas, PWF d)
    (hpos : ∀ t, t ≤ deltas.length →
      AllPos (runRolling f output_func r (deltas.take t)).1) :
    ∀ t, t ≤ deltas.length → ∀ x : OutKey,
      outWeight (runRolling f output_func r (deltas.take t)).2 x =
        refFn f output_func r (runRolling f output_func r (deltas.take t)).1 x := by
  intro t ht x
  apply run_invariant f output_func r (deltas.take t)
  · intro d hd
    exact hwf d (List.mem_of_mem_take hd)
  · intro t' ht'
    rw [List.take_take]
    exact hpos (min t' t) (le_trans (min_le_right _ _) ht)

/-- Counterexample to C1 as stated (over *every* delta sequence).  A single
delta carrying weight `-1` at `(partition 0, ts 5, value 100)` is a legal
batch, but the integrated input then holds a negative weight: the reference
emits the row `(0, (5, Some (-100)))` with weight 1, while the incremental
operator skips non-positive weights (`!w.le0()`) and emits nothing, so the
integral of its output assigns that row weight 0. -/
theorem rolling_aggregate_faithful_counterexample :
    PWF ([(0, [(5, [(100, -1)])])] : PBatch) ∧
    outWeight (runRolling (fun v => v) (fun a => a) ⟨.Before 1000, .Before 0⟩
      [[(0, [(5, [(100, -1)])])]]).2 (0, (5, some (-100))) = 0 ∧
    refFn (fun v => v) (fun a => a) ⟨.Before 1000, .Before 0⟩
      (runRolling (fun v => v) (fun a => a) ⟨.Before 1000, .Before 0⟩
        [[(0, [(5, [(100, -1)])])]]).1 (0, (5, some (-100))) = 1 := by
  decide

/-- Witness for C1 (amended) on the spec's first seed scenario: one delta
inserting `(partition 1, ts 5, value 100, weight 1)`. -/
theorem rolling_aggregate_faithful_witness :
    outWeight (runRolling (fun v => v) (fun a => a) ⟨.Before 1000, .Before 0⟩
        ([[(1, [(5, [(100, 1)])])]].take 1)).2 (1, (5, some 100)) =
      refFn (fun v => v) (fun a => a) ⟨.Before 1000, .Before 0⟩
        (runRolling (fun v => v) (fun a => a) ⟨.Before 1000, .Before 0⟩
          ([[(1, [(5, [(100, 1)])])]].take 1)).1 (1, (5, some 100)) ∧
    refFn (fun v => v) (fun a => a) ⟨.Before 1000, .Before 0⟩
      (runRolling (fun v => v) (fun a => a) ⟨.Before 1000, .Before 0⟩
        ([[(1, [(5, [(100, 1)])])]].take 1)).1 (1, (5, some 100)) = 1 := by
  constructor
  · exact rolling_aggregate_faithful (fun v => v) (fun a => a)
      ⟨.Before 1000, .Before 0⟩ [[(1, [(5, [(100, 1)])])]]
      (by decide) (by decide) 1 (by decide) (1, (5, some 100))
  · decide

end DBSP
